import Mathlib

/-
Shallow embedding of the SAT-based DDD train-scheduling core
(src/solvers/ddd/common.rs and src/solvers/ddd/sat.rs).

Modelling conventions:
* `i32` times and costs are modelled as unbounded `Int`; machine overflow is
  not involved in any of the verified claims (the `i32::MAX` sentinel is the
  explicit constant `i32Max`).
* satcoder's polymorphic `Bool<L>` literal type is modelled by `BoolL`:
  a Boolean constant or a signed solver variable, variables being named by
  allocation order.
* The incremental SAT solver (an external dependency, spec §4.1) is modelled
  by the observable interface the core uses: a fresh-variable counter and
  the ordered list of clauses added so far.
* Rust panics (failed `assert!`, out-of-bounds indexing, `unwrap` on empty)
  are modelled by `Option`, `none` meaning a panic.
* `Vec::partition_point` is modelled as the length of the maximal prefix
  satisfying the predicate, which coincides with the Rust binary search on
  the (invariantly sorted) `delays` sequences it is applied to.
-/

/-- satcoder `Bool<L>`: a constant or a solver variable with a sign. -/
inductive BoolL where
  | const : Bool → BoolL
  | lit : Nat → Bool → BoolL
deriving DecidableEq, Repr

/-- Literal negation (Rust `!` on `Bool<L>`). -/
def BoolL.neg : BoolL → BoolL
  | .const b => .const (!b)
  | .lit v s => .lit v (!s)

/-- A clause is a disjunction of literals, kept as the literal list passed to
`add_clause`. -/
abbrev Clause := List BoolL

/-- The incremental SAT solver state visible to the core (spec §4.1):
fresh-variable counter and the clauses added so far, in order. -/
structure SatState where
  nextVar : Nat
  clauses : List Clause
deriving DecidableEq, Repr

/-- `SatInstance::new_var`. -/
def SatState.newVar (s : SatState) : BoolL × SatState :=
  (BoolL.lit s.nextVar true, { s with nextVar := s.nextVar + 1 })

/-- `SatInstance::add_clause`. -/
def SatState.addClause (s : SatState) (c : Clause) : SatState :=
  { s with clauses := s.clauses ++ [c] }

/-- Add several clauses in order. -/
def SatState.addClauses (s : SatState) (cs : List Clause) : SatState :=
  { s with clauses := s.clauses ++ cs }

/-- The Rust `i32::MAX` sentinel used as `+∞` in `delays`. -/
def i32Max : Int := 2147483647

/-- Per-visit occupation (common.rs `Occ`).  The `cost_tree` field is omitted:
`USE_COST_TREE` is the constant `false` in sat.rs, so it is never used. -/
structure Occ where
  cost : List BoolL
  delays : List (BoolL × Int)
  incumbent_idx : Nat
deriving DecidableEq, Repr

/-- The occupation created for each visit at initialization
(sat.rs lines 266–271). -/
def initOcc (earliest : Int) : Occ :=
  { cost := [BoolL.const true]
    delays := [(BoolL.const true, earliest), (BoolL.const false, i32Max)]
    incumbent_idx := 0 }

/-- `Vec::partition_point` for the predicate `t0 < t`: length of the maximal
prefix of `l` whose times are `< t` (equal to the Rust binary-search result
whenever `l` is sorted by time, which the `delays` invariant guarantees). -/
def partPoint (l : List (BoolL × Int)) (t : Int) : Nat :=
  (l.takeWhile (fun p => decide (p.2 < t))).length

/-- `Vec::insert` at position `n`. -/
def insertAt (l : List α) (n : Nat) (a : α) : List α :=
  l.take n ++ a :: l.drop n

/-- `Occ::incumbent_time` (`self.delays[self.incumbent_idx].1`); `none`
models the out-of-bounds panic. -/
def Occ.incumbentTime (o : Occ) : Option Int :=
  (o.delays.get? o.incumbent_idx).map Prod.snd

/-- `Occ::time_point` (common.rs lines 179–204).  Returns the literal for
time `t`, whether a fresh variable was allocated, and the updated occupation
and solver state; `none` models a failed `assert!` (or indexing an empty
`delays`).  The two sortedness assertions of the Rust code
(`delays[idx-1].1 < t` and `delays[idx].1 >= t`) hold by construction of
`partPoint` and are therefore not separate guards here.  The `getD` defaults
are unreachable: the preceding guards establish the indices are in bounds. -/
def Occ.time_point (o : Occ) (s : SatState) (t : Int) :
    Option (BoolL × Bool × Occ × SatState) :=
  let idx := partPoint o.delays t
  if o.delays = [] then none
  else
    let d0 := o.delays.getD 0 (BoolL.const true, 0)
    -- assert!(idx > 0 || t == self.delays[0].1)
    if ¬(0 < idx ∨ t = d0.2) then none
    -- assert!(idx < self.delays.len())
    else if ¬(idx < o.delays.length) then none
    else
      let di := o.delays.getD idx (BoolL.const true, 0)
      let dprevT : Option Int := (o.delays.get? (idx - 1)).map Prod.snd
      if di.2 = t ∨ (0 < idx ∧ dprevT = some t) then
        some (di.1, false, o, s)
      else
        let (v, s1) := s.newVar
        let prevLit := (o.delays.getD (idx - 1) (BoolL.const true, 0)).1
        let o' : Occ := { o with delays := insertAt o.delays idx (v, t) }
        -- if idx > 0 { add_clause([!var, delays[idx-1].0]) }
        let s2 := if 0 < idx then s1.addClause [v.neg, prevLit] else s1
        -- if idx < delays.len() { add_clause([!delays[idx+1].0, var]) };
        -- after the insertion, `delays[idx+1]` is the old `delays[idx]`.
        let s3 := if idx < o'.delays.length then s2.addClause [di.1.neg, v] else s2
        some (v, true, o', s3)

/-! ## Statistics emission (common.rs `do_output_stats`) -/

/-- `IterationType` (common.rs lines 42–49). -/
inductive IterationType where
  | Objective
  | TravelTimeConflict
  | ResourceConflict
  | TravelAndResourceConflict
  | Solution
deriving DecidableEq, Repr

/-- `SolveStats` (common.rs lines 51–58). -/
structure SolveStats where
  n_sat : Nat
  n_unsat : Nat
  n_travel : Nat
  n_conflict : Nat
  satsolver : String
deriving DecidableEq, Repr

/-- A stats value.  Counters are `num`, the signed bounds are `int`;
wall-clock and floating-point values are outside the embedding and are
abstracted to `other`. -/
inductive StatVal where
  | num : Nat → StatVal
  | int : Int → StatVal
  | other : StatVal
deriving DecidableEq, Repr

/-- `iteration_types.get(&k).unwrap_or(&0)` on the `BTreeMap`, modelled as an
association-list lookup defaulting to 0. -/
def lookupCount (m : List (IterationType × Nat)) (k : IterationType) : Nat :=
  match m.lookup k with
  | some n => n
  | none => 0

/-- `do_output_stats` (common.rs lines 60–137), as the ordered key/value list
passed to the `output_stats` callback.  `none` models the
`.max().unwrap()` panic on an empty occupation list.  Time-derived values
(`total_time`, `solver_time`, `algorithm_time`) and the floating-point
`avg_time_points` carry no claim-relevant content and are `StatVal.other`. -/
def do_output_stats (iteration : Nat) (iteration_types : List (IterationType × Nat))
    (stats : SolveStats) (occupations : List Occ) (lb ub : Int) :
    Option (List (String × StatVal)) :=
  match (occupations.map (fun o => o.delays.length - 1)).maximum? with
  | none => none
  | some mx =>
    some
      [("iterations", .num iteration),
       ("objective_iters", .num (lookupCount iteration_types .Objective)),
       ("travel_iters", .num (lookupCount iteration_types .TravelTimeConflict)),
       ("resource_iters", .num (lookupCount iteration_types .ResourceConflict)),
       ("travel_and_resource_iters",
         .num (lookupCount iteration_types .TravelAndResourceConflict)),
       ("num_traveltime", .num stats.n_travel),
       ("num_conflicts", .num stats.n_travel),
       ("num_time_points",
         .num ((occupations.map (fun o => o.delays.length - 1)).sum)),
       ("max_time_points", .num mx),
       ("avg_time_points", .other),
       ("total_time", .other),
       ("solver_time", .other),
       ("algorithm_time", .other),
       ("lb", .int lb),
       ("ub", .int ub)]

/-! ## Search modes and the UNSAT branch of the driver loop -/

/-- `SatBoundMode` (sat.rs lines 17–23). -/
inductive SatBoundMode where
  | AddClauses
  | Assumptions
deriving DecidableEq, Repr

/-- `SatSearchMode` (sat.rs lines 31–35). -/
inductive SatSearchMode where
  | UbSearch
  | Invalid
deriving DecidableEq, Repr

/-- A schedule: arrival times indexed `[train_idx][visit_idx]`. -/
abbrev Sched := List (List Int)

/-- Outcome of the UNSAT branch: return the given best solution `Ok`,
return the `NoSolution` error, or continue looping with the given new
`lower_bound`. -/
inductive UnsatOut where
  | ret : Int × Sched → UnsatOut
  | noSolution : UnsatOut
  | cont : Int → UnsatOut
deriving DecidableEq, Repr

/-- The UNSAT branch of the driver loop (sat.rs lines 820–866): what the
solver does when `solve_with_assumptions` returns UNSAT, given the current
search mode, `best_sol`, the `bound_used` in the failed call, and the
bounds.  Stats emission is omitted (pure output). -/
def handleUnsat (search : SatSearchMode) (best_sol : Option (Int × Sched))
    (bound_used : Option Int) (upper_bound : Option Int) (lower_bound : Int) :
    UnsatOut :=
  match search with
  | .Invalid =>
    match best_sol with
    | some cs => .ret cs
    | none => .noSolution
  | .UbSearch =>
    match bound_used with
    | some bound =>
      -- lower_bound = bound + 1
      let lb := bound + 1
      match best_sol, upper_bound with
      | some cs, some ub => if ub < lb then .ret cs else .cont lb
      | _, _ => .cont lb
    | none => .noSolution

/-! ## Problem model (spec §6 external interface) -/

/-- A visit of a train (spec §6). -/
structure Visit where
  resource_id : Nat
  earliest : Int
  travel_time : Int
deriving DecidableEq, Repr

/-- A train: its sequence of visits. -/
structure Train where
  visits : List Visit
deriving DecidableEq, Repr

/-- The read-only problem input. -/
structure Problem where
  trains : List Train
  conflicts : List (Nat × Nat)
deriving DecidableEq, Repr

/-! ## Budget constraint (sat.rs lines 714–779) -/

/-- A built totalizer, observed through its `rhs` literal sequence. -/
structure Totalizer where
  rhs : List BoolL
deriving DecidableEq, Repr

/-- Modelled from the spec: satcoder's `Totalizer::count` cardinality encoder
is an external dependency consumed through the interface of spec §4.1 ("given
a set of literals and an integer cap `B`, creates auxiliary variables and
clauses whose right-hand side is a sequence `R` of literals with `R[k]` ≡ 'at
least k+1 of the inputs are true', for `0 ≤ k ≤ B`").  The rhs literals are
fresh variables; the encoder's internal clauses are abstracted away (none of
them is the unit bound clause that the core itself adds). -/
def totalizerCount (s : SatState) (nUnits : Nat) (bound : Nat) :
    Totalizer × SatState :=
  let k := min nUnits (bound + 1)
  ({ rhs := (List.range k).map (fun i => BoolL.lit (s.nextVar + i) true) },
   { s with nextVar := s.nextVar + k })

/-- The driver's cached totalizer state (sat.rs lines 295–299). -/
structure BudgetSt where
  budget_tot : Option Totalizer
  budget_tot_len : Nat
  budget_tot_max_bound : Nat
  last_added_bound : Option Nat
deriving DecidableEq, Repr

/-- Budget state at initialization. -/
def initBudgetSt : BudgetSt :=
  { budget_tot := none, budget_tot_len := 0, budget_tot_max_bound := 0,
    last_added_bound := none }

/-- Outcome of the budget-enforcement step: an early return of a best
solution, the `NoSolution` error, or proceed to the SAT call carrying the
`bound_assumption`, the `bound_used`, and the updated budget and solver
states. -/
inductive BudgetOut where
  | ret : Int × Sched → BudgetOut
  | noSolution : BudgetOut
  | proceed : Option BoolL → Option Int → BudgetSt → SatState → BudgetOut
deriving DecidableEq, Repr

/-- The `target_ub` of one budget-enforcement step (sat.rs lines 738–741):
the current upper bound under `AddClauses`, the bisection midpoint under
`Assumptions`.  `Int.div` is Rust's truncating `i32` division (the two
coincide with Lean's `/` on the nonnegative bounds this step sees). -/
def targetUb (mode : SatBoundMode) (lower_bound ub : Int) : Int :=
  match mode with
  | .AddClauses => ub
  | .Assumptions => (lower_bound + ub).div 2

/-- The lazily (re)built totalizer cache (sat.rs lines 744–758): rebuild
when there is none yet, its input size is stale, or its cached cap is below
the requested bound. -/
def budgetRebuild (budget_units : List BoolL) (ub_usize : Nat)
    (bst : BudgetSt) (s : SatState) : BudgetSt × SatState :=
  if bst.budget_tot.isNone || bst.budget_tot_len != budget_units.length
      || decide (bst.budget_tot_max_bound < ub_usize) then
    let ts := totalizerCount s budget_units.length ub_usize
    ({ bst with
        budget_tot := some ts.1
        budget_tot_len := budget_units.length
        budget_tot_max_bound := ub_usize }, ts.2)
  else (bst, s)

/-- The budget-enforcement step (sat.rs lines 714–779), run between cost
encoding and the SAT call.  `none` models the panic of indexing
`tot.rhs()[ub_usize]` out of range.  `target_ub as usize` is modelled by
`Int.toNat`, exact in the reachable region `0 ≤ target_ub`. -/
def budgetStep (search : SatSearchMode) (mode : SatBoundMode)
    (upper_bound : Option Int) (lower_bound : Int)
    (best_sol : Option (Int × Sched)) (budget_units : List BoolL)
    (bst : BudgetSt) (s : SatState) : Option BudgetOut :=
  if search = .UbSearch then
    match upper_bound with
    | none => some (.proceed none none bst s)
    | some ub =>
      if ub < lower_bound then
        -- search space exhausted
        match best_sol with
        | some cs => some (.ret cs)
        | none => some .noSolution
      else
        let target_ub : Int := targetUb mode lower_bound ub
        let ub_usize : Nat := target_ub.toNat
        if ub_usize < budget_units.length then
          let rebuilt : BudgetSt × SatState :=
            budgetRebuild budget_units ub_usize bst s
          match rebuilt.1.budget_tot with
          | none => some (.proceed none none rebuilt.1 rebuilt.2)
          | some tot =>
            match tot.rhs.get? ub_usize with
            | none => none
            | some r =>
              let bound_lit := r.neg
              match mode with
              | .AddClauses =>
                if rebuilt.1.last_added_bound ≠ some ub_usize then
                  some (.proceed none (some target_ub)
                    { rebuilt.1 with last_added_bound := some ub_usize }
                    (rebuilt.2.addClause [bound_lit]))
                else some (.proceed none (some target_ub) rebuilt.1 rebuilt.2)
              | .Assumptions =>
                some (.proceed (some bound_lit) (some target_ub) rebuilt.1 rebuilt.2)
        else some (.proceed none none bst s)
  else some (.proceed none none bst s)

/-! ## Precedence encoding and the resource-conflict pass -/

/-- `SatPrecEncoding` (sat.rs lines 25–29). -/
inductive SatPrecEncoding where
  | Plain
  | Scl
deriving DecidableEq, Repr

/-- The literals of one emitted choice-variable conflict constraint. -/
structure ConfLits where
  choose : BoolL
  t1OutLit : BoolL
  t2OutLit : BoolL
  delay1 : BoolL
  delay2 : BoolL
deriving DecidableEq, Repr

/-- One conflicting candidate pair encountered during the resource pass:
the visit under examination, the other visit, their train indices, whether
the visit has a successor on its train, the interval bounds used in the
disjointness test, whether the conflict was processed (vs. skipped by the
per-iteration train-pair dedup), and the constraint literals if processed. -/
structure ConfEvent where
  visit : Nat
  other : Nat
  trainA : Nat
  trainB : Nat
  hasNext : Bool
  t1In : Int
  t1Out : Int
  t2In : Int
  t2Out : Int
  processed : Bool
  lits : Option ConfLits
deriving DecidableEq, Repr

/-- State threaded through the resource-conflict pass (sat.rs lines
459–597): the occupations, the solver, `deconflicted_train_pairs`,
`conflict_vars`, `scl_fixed_prec_rows`, `new_time_points`,
`found_resource_conflict`, `stats.n_conflict`, plus an event log and the
list of visits retained on the worklist (the observable outcome of
`touched_intervals.retain`). -/
structure PassSt where
  occs : List Occ
  s : SatState
  deconf : List (Nat × Nat)
  cvars : List ((Nat × Nat) × BoolL)
  sclRows : List (Nat × Int)
  ntps : List (Nat × BoolL × Int)
  foundRes : Bool
  nConflict : Nat
  events : List ConfEvent
  retained : List Nat
deriving DecidableEq, Repr

/-- `HashSet::insert`: whether the element was newly inserted, and the
updated set (modelled as a list of distinct elements). -/
def hsInsert [DecidableEq α] (s : List α) (a : α) : Bool × List α :=
  if a ∈ s then (false, s) else (true, a :: s)

/-- `occupations[vid].time_point(solver, t)` threading the occupation list
and solver state of a `PassSt`; `none` is a panic. -/
def occTimePoint (st : PassSt) (vid : Nat) (t : Int) :
    Option (BoolL × Bool × PassSt) :=
  match st.occs.get? vid with
  | none => none
  | some o =>
    match o.time_point st.s t with
    | none => none
    | some (l, isNew, o', s') =>
      some (l, isNew, { st with occs := st.occs.set vid o', s := s' })

/-- The pairwise SCL clauses `in_var ∧ lit_i → lit_{i+1}` for `i ∈ [0, idx)`
(the `for i in 0..idx` loop of sat.rs lines 914–918), in loop order;
`none` models an out-of-bounds index. -/
def pairwiseClauses (delays : List (BoolL × Int)) (in_var : BoolL) :
    Nat → Option (List Clause)
  | 0 => some []
  | j + 1 =>
    match pairwiseClauses delays in_var j, delays.get? j, delays.get? (j + 1) with
    | some cls, some a, some b => some (cls ++ [[in_var.neg, a.1.neg, b.1]])
    | _, _, _ => none

/-- `add_fixed_precedence_scl` (sat.rs lines 878–925): the SCL-compressed
fixed-precedence constraint for one ladder point `(in_var, in_t)` of
`visit_id`.  `visits` maps a visit id to its `(train_idx, visit_idx)`. -/
def add_fixed_precedence_scl (problem : Problem) (visits : List (Nat × Nat))
    (st : PassSt) (visit_id : Nat) (in_var : BoolL) (in_t : Int) :
    Option PassSt :=
  -- if !added.insert((visit_id, in_t)) { return; }
  if (visit_id, in_t) ∈ st.sclRows then some st
  else
    let st0 := { st with sclRows := (visit_id, in_t) :: st.sclRows }
    match visits.get? visit_id with
    | none => none
    | some tv =>
      match problem.trains.get? tv.1 with
      | none => none
      | some train =>
        if tv.2 + 1 ≥ train.visits.length then some st0
        else
          match train.visits.get? tv.2 with
          | none => none
          | some v =>
            let next_visit := visit_id + 1
            let req_t := in_t + v.travel_time
            match (st0.occs.get? next_visit).bind (fun o => o.delays.get? 0) with
            | none => none
            | some d0 =>
              if req_t ≤ d0.2 then some st0
              else
                match occTimePoint st0 next_visit req_t with
                | none => none
                | some (req_var, is_new, st1) =>
                  match st1.occs.get? next_visit with
                  | none => none
                  | some nocc1 =>
                    -- const SCL_PAIRWISE_THRESHOLD: usize = 5
                    let idx := partPoint nocc1.delays req_t
                    let st2res : Option PassSt :=
                      if idx ≤ 5 then
                        (pairwiseClauses nocc1.delays in_var idx).map
                          (fun cls => { st1 with s := st1.s.addClauses cls })
                      else
                        some { st1 with s := st1.s.addClause [in_var.neg, req_var] }
                    match st2res with
                    | none => none
                    | some st2 =>
                      if is_new then
                        some { st2 with
                          ntps := st2.ntps ++ [(next_visit, req_var, req_t)] }
                      else some st2

/-- A skipped (deduplicated) conflict event. -/
def skipEvent (visit other trainA trainB : Nat) (hasNext : Bool)
    (t1In t1Out t2In t2Out : Int) : ConfEvent :=
  { visit := visit, other := other, trainA := trainA, trainB := trainB
    hasNext := hasNext, t1In := t1In, t1Out := t1Out, t2In := t2In
    t2Out := t2Out, processed := false, lits := none }

/-- Stage a new time point when a fresh variable was allocated for it (the
`if t1_new { new_time_points.push(...) }` steps of sat.rs lines 530–537). -/
def stageNtp (cond : Bool) (st : PassSt) (entry : Nat × BoolL × Int) : PassSt :=
  if cond then { st with ntps := st.ntps ++ [entry] } else st

/-- The `SatPrecEncoding::Scl` hook of conflict processing (sat.rs lines
539–546): run `add_fixed_precedence_scl` for both freshly inserted time
points; a no-op under any other precedence encoding. -/
def sclStage (problem : Problem) (visits : List (Nat × Nat))
    (prec : SatPrecEncoding) (st : PassSt) (visit_id : Nat) (l1 : BoolL)
    (t1 : Int) (other_visit : Nat) (l2 : BoolL) (t2 : Int) : Option PassSt :=
  if prec = .Scl then
    (add_fixed_precedence_scl problem visits st visit_id l1 t1).bind
      (fun stx => add_fixed_precedence_scl problem visits stx other_visit l2 t2)
  else some st

/-- The outgoing boundary literal of a visit used in the conflict clauses
(sat.rs lines 548–560): the incumbent literal of the successor's occupation,
or the constant TRUE when the visit is the last of its train. -/
def outLit (st : PassSt) : Option Nat → Option BoolL
  | some v => (st.occs.get? v).bind
      (fun o => (o.delays.get? o.incumbent_idx).map Prod.fst)
  | none => some (BoolL.const true)

/-- `conflict_vars` lookup-or-allocate for the visit pair (sat.rs lines
562–575): both orientations are cached, the reverse one negated. -/
def chooseVar (st : PassSt) (visit_id other_visit : Nat) : BoolL × PassSt :=
  match st.cvars.lookup (visit_id, other_visit) with
  | some c => (c, st)
  | none =>
    let vs := st.s.newVar
    (vs.1, { st with
        s := vs.2
        cvars := ((visit_id, other_visit), vs.1) ::
                 ((other_visit, visit_id), vs.1.neg) :: st.cvars })

/-- Processing of one detected resource conflict (sat.rs lines 521–591):
insert `t1_out` into the other occupation's ladder and `t2_out` into this
one's, stage new time points, run SCL rows when `prec = Scl`, and emit the
two choice-variable clauses (`USE_CHOICE_VAR` is the constant `true`). -/
def processCandidate (problem : Problem) (visits : List (Nat × Nat))
    (prec : SatPrecEncoding) (visit_id train_idx other_train_idx other_visit : Nat)
    (next_visit other_next_visit : Option Nat) (t1_in t1_out t2_in t2_out : Int)
    (st : PassSt) (retain : Bool) : Option (PassSt × Bool) :=
  let stc := { st with foundRes := true, nConflict := st.nConflict + 1 }
  match occTimePoint stc other_visit t1_out with
  | none => none
  | some (delay_t2, t2new, st1) =>
    match occTimePoint st1 visit_id t2_out with
    | none => none
    | some (delay_t1, t1new, st2) =>
      let st3 := stageNtp t1new st2 (visit_id, delay_t1, t2_out)
      let st4 := stageNtp t2new st3 (other_visit, delay_t2, t1_out)
      match sclStage problem visits prec st4 visit_id delay_t1 t2_out
          other_visit delay_t2 t1_out with
      | none => none
      | some st5 =>
        match outLit st5 next_visit, outLit st5 other_next_visit with
        | some t1OutLit, some t2OutLit =>
          let chosen := chooseVar st5 visit_id other_visit
          let choose := chosen.1
          let st6 := chosen.2
          let c1 : Clause := [choose.neg, t1OutLit.neg, delay_t2]
          let c2 : Clause := [choose, t2OutLit.neg, delay_t1]
          let st7 := { st6 with s := (st6.s.addClause c1).addClause c2 }
          some ({ st7 with events := st7.events ++
            [{ visit := visit_id, other := other_visit, trainA := train_idx
               trainB := other_train_idx, hasNext := next_visit.isSome
               t1In := t1_in, t1Out := t1_out, t2In := t2_in, t2Out := t2_out
               processed := true
               lits := some { choose := choose, t1OutLit := t1OutLit
                              t2OutLit := t2OutLit, delay1 := delay_t1
                              delay2 := delay_t2 } }] }, retain)
        | _, _ => none

/-- One iteration of the innermost resource-conflict loop (sat.rs lines
482–592): examine candidate `other_visit` against the current visit.
Skips self and same-train candidates and disjoint intervals; otherwise
applies the `deconflicted_train_pairs` dedup
(`!deconflicted_train_pairs.insert(a) || !deconflicted_train_pairs.insert(b)`
with its short-circuit) and either skips with `retain = true` or processes
the conflict. -/
def candidateStep (problem : Problem) (visits : List (Nat × Nat))
    (prec : SatPrecEncoding) (visit_id train_idx : Nat)
    (next_visit : Option Nat) (t1_in t1_out : Int) (other_visit : Nat)
    (st : PassSt) (retain : Bool) : Option (PassSt × Bool) :=
  if visit_id = other_visit then some (st, retain)
  else
    match (st.occs.get? other_visit).bind Occ.incumbentTime with
    | none => none
    | some t2_in =>
      match visits.get? other_visit with
      | none => none
      | some otv =>
        if otv.1 = train_idx then some (st, retain)
        else
          match problem.trains.get? otv.1 with
          | none => none
          | some otherTrain =>
            let other_next_visit : Option Nat :=
              if otv.2 + 1 < otherTrain.visits.length
              then some (other_visit + 1) else none
            let t2outRes : Option Int :=
              match other_next_visit with
              | some v => (st.occs.get? v).bind Occ.incumbentTime
              | none => (otherTrain.visits.get? otv.2).map
                  (fun ov => t2_in + ov.travel_time)
            match t2outRes with
            | none => none
            | some t2_out =>
              if t1_out ≤ t2_in ∨ t2_out ≤ t1_in then some (st, retain)
              else
                let insA := hsInsert st.deconf (train_idx, otv.1)
                if insA.1 = false then
                  some ({ st with
                    deconf := insA.2
                    events := st.events ++
                      [skipEvent visit_id other_visit train_idx otv.1
                        next_visit.isSome t1_in t1_out t2_in t2_out] }, true)
                else
                  let insB := hsInsert insA.2 (otv.1, train_idx)
                  if insB.1 = false then
                    some ({ st with
                      deconf := insB.2
                      events := st.events ++
                        [skipEvent visit_id other_visit train_idx otv.1
                          next_visit.isSome t1_in t1_out t2_in t2_out] }, true)
                  else
                    processCandidate problem visits prec visit_id train_idx
                      otv.1 other_visit next_visit other_next_visit
                      t1_in t1_out t2_in t2_out
                      { st with deconf := insB.2 } retain

/-- Fold of `candidateStep` over the visits of one conflicting resource
(the `for other_visit in resource_visits[other_resource]` loop). -/
def candFold (problem : Problem) (visits : List (Nat × Nat))
    (prec : SatPrecEncoding) (visit_id train_idx : Nat)
    (next_visit : Option Nat) (t1_in t1_out : Int) (others : List Nat)
    (st : PassSt) (retain : Bool) : Option (PassSt × Bool) :=
  match others with
  | [] => some (st, retain)
  | o :: rest =>
    match candidateStep problem visits prec visit_id train_idx next_visit
        t1_in t1_out o st retain with
    | none => none
    | some (st', r') =>
      candFold problem visits prec visit_id train_idx next_visit
        t1_in t1_out rest st' r'

/-- Fold over the resources conflicting with the current visit's resource
(the `for other_resource in conflicting_resources` loop); `t1_out` is
recomputed from the current occupations on every resource iteration
(sat.rs lines 478–480). -/
def resFold (problem : Problem) (visits : List (Nat × Nat))
    (resource_visits : List (List Nat)) (prec : SatPrecEncoding)
    (visit_id train_idx : Nat) (next_visit : Option Nat) (t1_in : Int)
    (visit : Visit) (resources : List Nat) (st : PassSt) (retain : Bool) :
    Option (PassSt × Bool) :=
  match resources with
  | [] => some (st, retain)
  | r :: rest =>
    let t1outRes : Option Int :=
      match next_visit with
      | some nx => (st.occs.get? nx).bind Occ.incumbentTime
      | none => some (t1_in + visit.travel_time)
    match t1outRes with
    | none => none
    | some t1_out =>
      match resource_visits.get? r with
      | none => none
      | some others =>
        match candFold problem visits prec visit_id train_idx next_visit
            t1_in t1_out others st retain with
        | none => none
        | some (st', r') =>
          resFold problem visits resource_visits prec visit_id train_idx
            next_visit t1_in visit rest st' r'

/-- The body of the `touched_intervals.retain` closure for one visit
(sat.rs lines 461–597); appends the visit to `retained` when its retain
flag ends up `true`. -/
def visitStep (problem : Problem) (visits : List (Nat × Nat))
    (resource_visits : List (List Nat)) (conflicts : List (Nat × List Nat))
    (prec : SatPrecEncoding) (st : PassSt) (visit_id : Nat) :
    Option PassSt :=
  match visits.get? visit_id with
  | none => none
  | some tv =>
    match problem.trains.get? tv.1 with
    | none => none
    | some train =>
      let next_visit : Option Nat :=
        if tv.2 + 1 < train.visits.length then some (visit_id + 1) else none
      match (st.occs.get? visit_id).bind Occ.incumbentTime with
      | none => none
      | some t1_in =>
        match train.visits.get? tv.2 with
        | none => none
        | some visit =>
          let run : Option (PassSt × Bool) :=
            match conflicts.lookup visit.resource_id with
            | none => some (st, false)
            | some rs =>
              resFold problem visits resource_visits prec visit_id tv.1
                next_visit t1_in visit rs st false
          match run with
          | none => none
          | some (st', retain) =>
            if retain then
              some { st' with retained := st'.retained ++ [visit_id] }
            else some st'

/-- The full resource-conflict pass (`touched_intervals.retain`, sat.rs
lines 459–597), folded over the worklist in order.  A fresh
`deconflicted_train_pairs` set is allocated per pass, so a pass starts from
`st.deconf = []` (and an empty event log / retained list). -/
def resourcePass (problem : Problem) (visits : List (Nat × Nat))
    (resource_visits : List (List Nat)) (conflicts : List (Nat × List Nat))
    (prec : SatPrecEncoding) (touched : List Nat) (st : PassSt) :
    Option PassSt :=
  match touched with
  | [] => some st
  | v :: rest =>
    match visitStep problem visits resource_visits conflicts prec st v with
    | none => none
    | some st' =>
      resourcePass problem visits resource_visits conflicts prec rest st'

/-! ## The bound-steering driver loop (sat.rs lines 342–871)

The loop's bound-steering logic is embedded as a step function over the
driver's search state.  The refinement pass, cost encoding and heuristic
channel only feed it data, so their outputs appear as universally
quantified per-iteration oracle inputs; the wall-clock timeout check is
outside the embedding.  Every program point that reads or writes
`lower_bound`, `upper_bound`, `best_sol`, the budget state or the solve
assumptions is represented. -/

/-- A final result of the driver (`Ok(schedule)` or the `NoSolution`
error); the wall-clock `Timeout` return is outside the embedding. -/
inductive DriverFinal where
  | ok : Sched → DriverFinal
  | noSolution : DriverFinal
deriving DecidableEq, Repr

/-- The driver's bound-steering state at the top of a loop iteration. -/
structure DriverSt where
  best_sol : Option (Int × Sched)
  lower_bound : Int
  upper_bound : Option Int
  budget_units : List BoolL
  bst : BudgetSt
  sat : SatState
  is_sat : Bool
deriving DecidableEq, Repr

/-- Driver state at the top of the first iteration (sat.rs lines 284–340):
no incumbent, `lower_bound = 0`, no upper bound, no budget units, no
totalizer, and `is_sat = true`. -/
def initDriverSt (s : SatState) : DriverSt :=
  { best_sol := none, lower_bound := 0, upper_bound := none
    budget_units := [], bst := initBudgetSt, sat := s, is_sat := true }

/-- Per-iteration oracle inputs (see the section comment): data produced by
the parts of the iteration that the bound-steering claims quantify over. -/
structure IterInput where
  heur : List (Int × Sched)
  foundConflict : Bool
  solCost : Int
  solSched : Sched
  blockClause : Clause
  passClauses : List Clause
  passVars : Nat
  newUnits : List BoolL
  satResult : Bool

/-- `best_sol.as_ref().map(|(c, _)| cost < *c).unwrap_or(true)`: is `cost`
an improvement over the current best? -/
def improves (best : Option (Int × Sched)) (c : Int) : Bool :=
  match best with
  | some b => decide (c < b.1)
  | none => true

/-- `upper_bound = Some(upper_bound.map(|b| b.min(cost - 1)).unwrap_or(cost - 1))`
(sat.rs lines 377–380 and 621–624). -/
def tightenUb (ub : Option Int) (cost : Int) : Option Int :=
  some (match ub with
        | some b => min b (cost - 1)
        | none => cost - 1)

/-- The non-blocking heuristic drain (sat.rs lines 370–385): update
`best_sol` on improvement and, in UbSearch mode only, tighten the upper
bound; time-point injection is part of the oracle clause/variable deltas. -/
def drainHeur (search : SatSearchMode) (best : Option (Int × Sched))
    (ub : Option Int) (props : List (Int × Sched)) :
    Option (Int × Sched) × Option Int :=
  match props with
  | [] => (best, ub)
  | p :: rest =>
    let best' := if improves best p.1 then some p else best
    let ub' := if search = .UbSearch then tightenUb ub p.1 else ub
    drainHeur search best' ub' rest

/-- Result of one driver iteration: `solved` records the assumption set of
the SAT call when one was made (`none` if the iteration returned before
solving); `out` is either a final result or the state at the top of the
next iteration. -/
structure StepRes where
  solved : Option (Option BoolL)
  out : Sum DriverFinal DriverSt
deriving DecidableEq, Repr

/-- Budget enforcement, the SAT call and its result handling (sat.rs lines
714–868), shared by every control path of an iteration. -/
def solvePhase (mode : SatBoundMode) (search : SatSearchMode)
    (inp : IterInput) (st : DriverSt) : Option StepRes :=
  match budgetStep search mode st.upper_bound st.lower_bound st.best_sol
      st.budget_units st.bst st.sat with
  | none => none
  | some (.ret cs) => some { solved := none, out := .inl (.ok cs.2) }
  | some .noSolution => some { solved := none, out := .inl .noSolution }
  | some (.proceed assumption bound_used bst' sat') =>
    let st' := { st with bst := bst', sat := sat' }
    if inp.satResult then
      -- incumbent-index updates and touched-interval marking act on the
      -- occupations, not on the bound-steering state
      some { solved := some assumption, out := .inr { st' with is_sat := true } }
    else
      match handleUnsat search st'.best_sol bound_used st'.upper_bound
          st'.lower_bound with
      | .ret cs => some { solved := some assumption, out := .inl (.ok cs.2) }
      | .noSolution => some { solved := some assumption, out := .inl .noSolution }
      | .cont lb' => some { solved := some assumption
                            out := .inr { st' with is_sat := false, lower_bound := lb' } }

/-- Result of the pre-solve part of an iteration: an early return (the
UbSearch optimal return of sat.rs lines 634–653), or the driver state
handed to the budget/solve phase. -/
inductive PreOut where
  | done : StepRes → PreOut
  | go : DriverSt → PreOut
deriving DecidableEq, Repr

/-- The part of an iteration before budget enforcement (sat.rs lines
364–671): when the previous solve was SAT, drain the heuristic, apply the
refinement/cost-encoding deltas, and on a conflict-free incumbent update
`best_sol`, tighten the upper bound and possibly return optimal (UbSearch)
or add the blocking clause (Invalid).  `none` models the
`best_sol.clone().unwrap()` panic on the optimal return path. -/
def preSolve (search : SatSearchMode) (inp : IterInput) (st0 : DriverSt) :
    Option PreOut :=
  if st0.is_sat then
    let dr := drainHeur search st0.best_sol st0.upper_bound inp.heur
    let st1 : DriverSt := { st0 with
      best_sol := dr.1
      upper_bound := dr.2
      sat := { nextVar := st0.sat.nextVar + inp.passVars
               clauses := st0.sat.clauses ++ inp.passClauses }
      budget_units := st0.budget_units ++ inp.newUnits }
    if inp.foundConflict then some (.go st1)
    else
      -- conflict-free incumbent (sat.rs lines 611–669)
      let cost := inp.solCost
      let best2 := if improves st1.best_sol cost
        then some (cost, inp.solSched) else st1.best_sol
      let ub2 := if search = .UbSearch then tightenUb st1.upper_bound cost
        else st1.upper_bound
      let st2 := { st1 with best_sol := best2, upper_bound := ub2 }
      if search = .UbSearch then
        match st2.upper_bound with
        | some u =>
          if u < st2.lower_bound then
            match st2.best_sol with
            | some cs => some (.done { solved := none, out := .inl (.ok cs.2) })
            | none => none
          else some (.go st2)
        | none => some (.go st2)
      else
        let st3 := if inp.blockClause ≠ [] then
            { st2 with sat := st2.sat.addClause inp.blockClause }
          else st2
        some (.go st3)
  else some (.go st0)

/-- One driver loop iteration (sat.rs lines 342–871), without the
wall-clock timeout check: the pre-solve phase followed by budget
enforcement, the SAT call and its result handling. -/
def driverIter (mode : SatBoundMode) (search : SatSearchMode)
    (inp : IterInput) (st0 : DriverSt) : Option StepRes :=
  match preSolve search inp st0 with
  | none => none
  | some (.done r) => some r
  | some (.go st) => solvePhase mode search inp st

/-- State after `n` driver iterations from `st`: still running (`Sum.inr`),
returned (`Sum.inl`), or panicked (`none`). -/
def runDriver (mode : SatBoundMode) (search : SatSearchMode)
    (oracle : Nat → IterInput) (st : DriverSt) :
    Nat → Option (Sum DriverFinal DriverSt)
  | 0 => some (.inr st)
  | n + 1 =>
    match runDriver mode search oracle st n with
    | none => none
    | some (.inl r) => some (.inl r)
    | some (.inr s) =>
      match driverIter mode search (oracle n) s with
      | none => none
      | some res => some res.out

/-- The `StepRes` of iteration `n` (0-based), when the loop is still
running at its top. -/
def stepAt (mode : SatBoundMode) (search : SatSearchMode)
    (oracle : Nat → IterInput) (st : DriverSt) (n : Nat) : Option StepRes :=
  match runDriver mode search oracle st n with
  | some (.inr s) => driverIter mode search (oracle n) s
  | _ => none

/-! ## Invariant predicates used by the claims -/

/-- The `delays` sequence is strictly increasing in its time component. -/
def delaysSorted (delays : List (BoolL × Int)) : Prop :=
  List.Chain' (fun a b => a.2 < b.2) delays

/-- The chain-clause part of claim C1 as stated: for every adjacent pair
`(p, t_p), (n, t_n)` of `delays` the chain clause `¬n ∨ p` has been added
to the solver (is among the clause lists passed to `add_clause`). -/
def chainClausesAdded (db : List Clause) (delays : List (BoolL × Int)) : Prop :=
  List.Chain' (fun p n => [n.1.neg, p.1] ∈ db) delays

/-- The amended chain-clause property: every adjacent pair has its chain
clause added, except a sentinel adjacency `TRUE–FALSE` (the two pairs an
occupation is created with; no clause is added for that adjacency, and its
implication `FALSE → TRUE` is trivially valid). -/
def chainClausesAmended (db : List Clause) (delays : List (BoolL × Int)) : Prop :=
  List.Chain' (fun p n => [n.1.neg, p.1] ∈ db ∨
    (p.1 = BoolL.const true ∧ n.1 = BoolL.const false)) delays

/-- The occupation invariant of claim C1 (with the amended chain-clause
conjunct): strictly increasing times, first literal the constant TRUE, last
pair the constant FALSE at `i32::MAX`, and every adjacency chain-claused
(amended form). -/
def occInvariant (db : List Clause) (o : Occ) : Prop :=
  delaysSorted o.delays ∧
  (o.delays.head?).map Prod.fst = some (BoolL.const true) ∧
  o.delays.getLast? = some (BoolL.const false, i32Max) ∧
  chainClausesAmended db o.delays

/-- Two conflict events concern the same unordered train pair. -/
def samePairB (e e' : ConfEvent) : Bool :=
  (e.trainA == e'.trainA && e.trainB == e'.trainB) ||
  (e.trainA == e'.trainB && e.trainB == e'.trainA)

/-- `newer` is at most as large an upper bound as `older` (with `none` =
no bound yet): any bound in `older` is matched by one in `newer` that is
at most as large. -/
def ubTightened (newer older : Option Int) : Prop :=
  ∀ b, older = some b → ∃ c, newer = some c ∧ c ≤ b

/-- A stats record whose travel and conflict counters differ (used to
exhibit that the emitted `num_conflicts` is not `n_conflict`). -/
def statsTravelConflictDiffer : SolveStats :=
  { n_sat := 0, n_unsat := 0, n_travel := 0, n_conflict := 1, satsolver := "" }

/-- Two conflict events (or an event and a train pair) concern the same
unordered train pair. -/
def samePairT (e : ConfEvent) (a b : Nat) : Prop :=
  (e.trainA = a ∧ e.trainB = b) ∨ (e.trainA = b ∧ e.trainB = a)

/-- Per-index dedup property of a resource-pass event log: an event is
processed exactly when no earlier event of the log concerns the same
unordered train pair. -/
def goodTrace (events : List ConfEvent) : Prop :=
  ∀ k e, events.get? k = some e →
    (e.processed = true ↔
      (events.take k).any (fun e2 => samePairB e2 e) = false)

/-- Per-event facts tied to the source problem: the recorded `hasNext`
matches whether the visit has a successor on its train, and for a last
visit the interval end used in the disjointness test is
`incumbent + travel_time` and the outgoing boundary literal is the
constant TRUE. -/
def eventVisitOk (problem : Problem) (visits : List (Nat × Nat))
    (e : ConfEvent) : Prop :=
  ∀ tv train visit, visits.get? e.visit = some tv →
    problem.trains.get? tv.1 = some train →
    train.visits.get? tv.2 = some visit →
    (e.hasNext = decide (tv.2 + 1 < train.visits.length)) ∧
    (e.hasNext = false → e.t1Out = e.t1In + visit.travel_time ∧
      (∀ l, e.lits = some l → l.t1OutLit = BoolL.const true))

/-- Invariant carried through the resource-conflict pass: the dedup set is
symmetric and coincides with the train pairs already logged; the log has
the dedup property; every processed event's two choice clauses are in the
solver; and every event satisfies its per-visit facts. -/
def passInv (problem : Problem) (visits : List (Nat × Nat)) (st : PassSt) :
    Prop :=
  (∀ a b, (a, b) ∈ st.deconf → (b, a) ∈ st.deconf) ∧
  (∀ a b, ((a, b) ∈ st.deconf ↔ ∃ e ∈ st.events, samePairT e a b)) ∧
  goodTrace st.events ∧
  (∀ e ∈ st.events, e.processed = true → ∀ l, e.lits = some l →
    [l.choose.neg, l.t1OutLit.neg, l.delay2] ∈ st.s.clauses ∧
    [l.choose, l.t2OutLit.neg, l.delay1] ∈ st.s.clauses) ∧
  (∀ e ∈ st.events, eventVisitOk problem visits e)

/-- Every dedup-skipped event's visit is kept on the worklist. -/
def skippedRetained (st : PassSt) : Prop :=
  ∀ e ∈ st.events, e.processed = false → e.visit ∈ st.retained

/-! ## A concrete two-train instance for exercising the resource pass -/

/-- Two trains of two visits each; the two last visits share resource 1,
the first visits use distinct resources. -/
def passTrains : List Train :=
  [{ visits := [{ resource_id := 0, earliest := 0, travel_time := 5 },
                { resource_id := 1, earliest := 5, travel_time := 5 }] },
   { visits := [{ resource_id := 2, earliest := 0, travel_time := 5 },
                { resource_id := 1, earliest := 5, travel_time := 5 }] }]

def passProblem : Problem := { trains := passTrains, conflicts := [] }

/-- Global visit id → (train, visit index). -/
def passVisits : List (Nat × Nat) := [(0, 0), (0, 1), (1, 0), (1, 1)]

/-- Resource → global visit ids occupying it. -/
def passResourceVisits : List (List Nat) := [[0], [1, 3], [2]]

/-- Each resource conflicts (only) with itself. -/
def passConflicts : List (Nat × List Nat) := [(0, [0]), (1, [1]), (2, [2])]

/-- The fresh pass state over the initial occupations. -/
def passSt0 : PassSt :=
  { occs := [initOcc 0, initOcc 5, initOcc 0, initOcc 5]
    s := { nextVar := 0, clauses := [] }
    deconf := []
    cvars := []
    sclRows := []
    ntps := []
    foundRes := false
    nConflict := 0
    events := []
    retained := [] }

/-- The state after running the resource pass on the whole worklist. -/
def passStOut : PassSt :=
  (resourcePass passProblem passVisits passResourceVisits passConflicts
    SatPrecEncoding.Plain [0, 1, 2, 3] passSt0).getD passSt0

/-- The first logged conflict event of that run. -/
def passEvent0 : ConfEvent :=
  passStOut.events.getD 0 (skipEvent 0 0 0 0 false 0 0 0 0)

/-- Train 0 of the instance. -/
def passTrain0 : Train := (passProblem.trains.get? 0).getD { visits := [] }

/-- Its second (and last) visit. -/
def passVisit1 : Visit := (passTrain0.visits.get? 1).getD
  { resource_id := 0, earliest := 0, travel_time := 0 }

/-! # Theorems -/

/-- On a time-sorted list, the partition point of a present time `t` is
exactly its position: head of the first non-`< t` suffix. -/
theorem chainLtHead {a : BoolL × Int} {l : List (BoolL × Int)}
    (h : List.Chain' (fun x y => x.2 < y.2) (a :: l)) :
    ∀ x ∈ l, a.2 < x.2 := by
  induction l generalizing a with
  | nil => intro x hx; cases hx
  | cons b rest ih =>
    intro x hx
    have hab : a.2 < b.2 := (List.chain'_cons.mp h).1
    cases hx with
    | head => exact hab
    | tail _ hx => exact hab.trans (ih (List.chain'_cons.mp h).2 x hx)

theorem get_partPoint_of_mem {l : List (BoolL × Int)} {lit : BoolL} {t : Int}
    (hs : delaysSorted l) (hm : (lit, t) ∈ l) :
    l.get? (partPoint l t) = some (lit, t) := by
  induction l with
  | nil => cases hm
  | cons a rest ih =>
    by_cases hlt : a.2 < t
    · have hne : (lit, t) ≠ a := by
        intro h
        rw [← h] at hlt
        exact absurd hlt (lt_irrefl t)
      have hmr : (lit, t) ∈ rest := by
        cases hm with
        | head => exact absurd rfl hne
        | tail _ hx => exact hx
      have hps : partPoint (a :: rest) t = partPoint rest t + 1 := by
        simp [partPoint, List.takeWhile_cons, hlt]
      rw [hps]
      simpa using ih (List.chain'_cons'.mp hs).2 hmr
    · have hps : partPoint (a :: rest) t = 0 := by
        simp [partPoint, List.takeWhile_cons, hlt]
      have hae : a = (lit, t) := by
        cases hm with
        | head => rfl
        | tail _ hx =>
          exact absurd (chainLtHead hs _ hx) hlt
      rw [hps, hae]
      rfl

/-- **C7.** `time_point` is idempotent: for every occupation whose (sorted)
`delays` already contain a pair with time `t`, calling `time_point t`
returns the literal associated with `t` together with `is_new = false`,
allocates no variable, adds no clause, and leaves `delays` unchanged (the
occupation and solver state are returned untouched). -/
theorem c7_time_point_idempotent (o : Occ) (s : SatState) (lit : BoolL)
    (t : Int) (hs : delaysSorted o.delays) (hm : (lit, t) ∈ o.delays) :
    o.time_point s t = some (lit, false, o, s) := by
  have hg := get_partPoint_of_mem hs hm
  have hlen : partPoint o.delays t < o.delays.length :=
    (List.get?_eq_some.mp hg).1
  have hne : o.delays ≠ [] := by
    intro h
    rw [h] at hm
    cases hm
  have hdi : o.delays.getD (partPoint o.delays t) (BoolL.const true, 0) = (lit, t) := by
    show (o.delays.get? (partPoint o.delays t)).getD _ = _
    rw [hg]
    rfl
  have hguard : 0 < partPoint o.delays t ∨
      t = (o.delays.getD 0 (BoolL.const true, 0)).2 := by
    rcases Nat.eq_zero_or_pos (partPoint o.delays t) with h0 | hpos
    · right
      rw [h0] at hg
      show t = ((o.delays.get? 0).getD _).2
      rw [hg]
      rfl
    · exact Or.inl hpos
  simp only [Occ.time_point]
  rw [if_neg hne, if_neg (not_not_intro hguard), if_neg (not_not_intro hlen),
    if_pos (Or.inl (by rw [hdi]))]
  rw [hdi]

/-- Witness for C7 at a concrete input: the initial occupation at earliest
time 4 already contains time 4, and `time_point 4` returns the TRUE
literal with `is_new = false`, leaving everything unchanged. -/
theorem c7_witness :
    delaysSorted (initOcc 4).delays ∧
    (BoolL.const true, (4 : Int)) ∈ (initOcc 4).delays ∧
    (initOcc 4).time_point { nextVar := 0, clauses := [] } 4 =
      some (BoolL.const true, false, initOcc 4, { nextVar := 0, clauses := [] }) :=
  ⟨by norm_num [delaysSorted, initOcc, i32Max], by decide,
    c7_time_point_idempotent (initOcc 4) { nextVar := 0, clauses := [] }
      (BoolL.const true) 4 (by norm_num [delaysSorted, initOcc, i32Max])
      (by decide)⟩

/-- **C8.** `do_output_stats` emits the stats key `num_conflicts` with the
value of `stats.n_travel` — the same counter it emits as `num_traveltime` —
and not with `stats.n_conflict`: on a stats record whose two counters
differ, the emitted `num_conflicts` value differs from `n_conflict`. -/
theorem c8_num_conflicts_is_n_travel (iteration : Nat)
    (its : List (IterationType × Nat)) (stats : SolveStats)
    (occupations : List Occ) (lb ub : Int) (out : List (String × StatVal))
    (h : do_output_stats iteration its stats occupations lb ub = some out) :
    out.lookup "num_conflicts" = some (.num stats.n_travel) ∧
    out.lookup "num_traveltime" = some (.num stats.n_travel) ∧
    ((do_output_stats 1 [] statsTravelConflictDiffer [initOcc 0] 0 0).bind
        (fun res => res.lookup "num_conflicts")) ≠
      some (.num statsTravelConflictDiffer.n_conflict) := by
  unfold do_output_stats at h
  cases hmx : (occupations.map (fun o => o.delays.length - 1)).maximum? with
  | none =>
    rw [hmx] at h
    cases h
  | some mx =>
    rw [hmx] at h
    injection h with h
    subst h
    refine ⟨?_, ?_, ?_⟩
    · simp [List.lookup]
    · simp [List.lookup]
    · decide

/-- Witness for C8 at a concrete input: on one occupation and a stats record
with `n_travel = 0`, the emitter produces a list whose `num_conflicts`
entry is `n_travel`. -/
theorem c8_witness :
    do_output_stats 1 [] statsTravelConflictDiffer [initOcc 0] 0 0 =
      some ((do_output_stats 1 [] statsTravelConflictDiffer [initOcc 0] 0 0).getD []) ∧
    ((do_output_stats 1 [] statsTravelConflictDiffer [initOcc 0] 0 0).getD
        []).lookup "num_conflicts" =
      some (.num statsTravelConflictDiffer.n_travel) :=
  ⟨rfl,
    (c8_num_conflicts_is_n_travel 1 [] statsTravelConflictDiffer [initOcc 0] 0 0
      _ rfl).1⟩

/-- **C2.** When a solve call returns UNSAT: in Invalid search mode the
driver returns `best_sol` if one exists and the `NoSolution` error
otherwise; in UbSearch mode with a budget bound used in that call it sets
`lower_bound = target_ub + 1` (continuing with that bound unless it can
stop) and returns `best_sol` as optimal if `upper_bound < lower_bound` now
holds; in UbSearch mode with no bound used in that call it returns
`NoSolution`. -/
theorem c2_unsat_handling (best : Option (Int × Sched)) (bu ub : Option Int)
    (lb : Int) :
    (∀ cs, best = some cs → handleUnsat .Invalid best bu ub lb = .ret cs) ∧
    (best = none → handleUnsat .Invalid best bu ub lb = .noSolution) ∧
    (∀ b,
      (∀ cs, best = some cs → ∀ u, ub = some u → u < b + 1 →
        handleUnsat .UbSearch best (some b) ub lb = .ret cs) ∧
      ((∀ cs u, ¬(best = some cs ∧ ub = some u ∧ u < b + 1)) →
        handleUnsat .UbSearch best (some b) ub lb = .cont (b + 1))) ∧
    (handleUnsat .UbSearch best none ub lb = .noSolution) := by
  refine ⟨?_, ?_, ?_, ?_⟩
  · intro cs hcs
    simp [handleUnsat, hcs]
  · intro h
    simp [handleUnsat, h]
  · intro b
    constructor
    · intro cs hcs u hu hlt
      simp [handleUnsat, hcs, hu, if_pos hlt]
    · intro hno
      cases hb : best with
      | none => simp [handleUnsat, hb]
      | some cs =>
        cases hu : ub with
        | none => simp [handleUnsat, hb, hu]
        | some u =>
          have hnlt : ¬(u < b + 1) := fun hlt => hno cs u ⟨hb, hu, hlt⟩
          simp [handleUnsat, hb, hu, if_neg hnlt]
  · simp [handleUnsat]

/-- Witness for C2 at concrete inputs: with `best_sol = (3, [[0]])`,
`upper_bound = 2` and a bound `2` used, UNSAT returns the best solution
(since `2 < 2 + 1`); with no bound used, UNSAT is `NoSolution`. -/
theorem c2_witness :
    handleUnsat .UbSearch (some (3, [[0]])) (some 2) (some 2) 0 =
      .ret (3, [[0]]) ∧
    handleUnsat .UbSearch (some (3, [[0]])) none (some 2) 3 = .noSolution :=
  ⟨((c2_unsat_handling (some (3, [[0]])) (some 2) (some 2) 0).2.2.1 2).1
      (3, [[0]]) rfl 2 rfl (by norm_num),
   (c2_unsat_handling (some (3, [[0]])) none (some 2) 3).2.2.2⟩

theorem head?_drop_eq (l : List α) (n : Nat) : (l.drop n).head? = l.get? n := by
  induction l generalizing n with
  | nil => simp
  | cons a r ih =>
    cases n with
    | zero => rfl
    | succ m => simpa using ih m

/-- `partPoint` names the length of the `takeWhile (·.2 < t)` prefix. -/
theorem partPoint_take (l : List (BoolL × Int)) (t : Int) :
    l.take (partPoint l t) = l.takeWhile (fun p => decide (p.2 < t)) :=
  (List.prefix_iff_eq_take.mp (List.takeWhile_prefix _)).symm

theorem partPoint_le_length (l : List (BoolL × Int)) (t : Int) :
    partPoint l t ≤ l.length := by
  have := List.IsPrefix.length_le (List.takeWhile_prefix
    (l := l) (fun p => decide (p.2 < t)))
  exact this

/-- The head of a `dropWhile` result fails the predicate. -/
theorem dropWhile_head_not {p : α → Bool} {l : List α} {y : α} {ys : List α}
    (h : l.dropWhile p = y :: ys) : p y = false := by
  induction l with
  | nil => cases h
  | cons a r ih =>
    simp only [List.dropWhile] at h
    cases hp : p a
    · rw [hp] at h
      simp only [cond_false] at h
      injection h with h1 _
      rw [← h1]
      exact hp
    · rw [hp] at h
      simp only [cond_true] at h
      exact ih h

/-- Every element of the partition prefix has time `< t`. -/
theorem mem_take_partPoint {l : List (BoolL × Int)} {t : Int}
    {x : BoolL × Int} (h : x ∈ l.take (partPoint l t)) : x.2 < t := by
  rw [partPoint_take] at h
  have h2 := List.mem_takeWhile_imp (l := l) (p := fun p => decide (p.2 < t)) h
  simpa using h2

/-- The element at the partition point (when present) has time `≥ t`. -/
theorem get_partPoint_ge {l : List (BoolL × Int)} {t : Int}
    {x : BoolL × Int} (h : l.get? (partPoint l t) = some x) : t ≤ x.2 := by
  have hd : (l.dropWhile (fun p => decide (p.2 < t))).head? = some x := by
    have h1 : l.drop (partPoint l t) = l.dropWhile (fun p => decide (p.2 < t)) := by
      have hsplit := List.takeWhile_append_dropWhile
        (p := fun p => decide (p.2 < t)) (l := l)
      calc l.drop (partPoint l t)
          = (l.takeWhile (fun p => decide (p.2 < t)) ++
             l.dropWhile (fun p => decide (p.2 < t))).drop (partPoint l t) := by
            rw [hsplit]
        _ = l.dropWhile (fun p => decide (p.2 < t)) := List.drop_left _ _
    rw [← h1, head?_drop_eq]
    exact h
  match hdw : l.dropWhile (fun p => decide (p.2 < t)) with
  | [] => rw [hdw] at hd; cases hd
  | y :: ys =>
    rw [hdw] at hd
    injection hd with hd
    subst hd
    have hny := dropWhile_head_not hdw
    simp only [decide_eq_false_iff_not] at hny
    exact le_of_not_lt hny

/-- Inserting `x` at position `n ≤ |l|` preserves a `Chain'` relation,
provided `x` relates to its (possible) new neighbours. -/
theorem chain'_insertAt {R : α → α → Prop} {l : List α} {n : Nat} {x : α}
    (h : List.Chain' R l)
    (hL : ∀ a, l.get? (n - 1) = some a → 0 < n → R a x)
    (hR : ∀ b, l.get? n = some b → R x b)
    (hn : n ≤ l.length) :
    List.Chain' R (insertAt l n x) := by
  unfold insertAt
  have h' : List.Chain' R (l.take n ++ l.drop n) := by
    rw [List.take_append_drop]
    exact h
  obtain ⟨hA, hB, _⟩ := List.chain'_append.mp h'
  refine List.chain'_append.mpr ⟨hA, List.chain'_cons'.mpr ⟨?_, hB⟩, ?_⟩
  · intro y hy
    refine hR y ?_
    rw [← head?_drop_eq]
    exact Option.mem_def.mp hy
  · intro a ha y hy
    have hy' : x = y := by
      have h3 := Option.mem_def.mp hy
      simp only [List.head?_cons, Option.some.injEq] at h3
      exact h3
    rw [← hy']
    have ha' : (l.take n).getLast? = some a := Option.mem_def.mp ha
    have hlenA : (l.take n).length = n := List.length_take_of_le hn
    have hpos : 0 < n := by
      rcases Nat.eq_zero_or_pos n with h0 | hp
      · rw [h0] at ha'
        simp at ha'
      · exact hp
    refine hL a ?_ hpos
    rw [List.getLast?_eq_get?, hlenA] at ha'
    rw [List.get?_take (Nat.sub_lt hpos one_pos)] at ha'
    exact ha'

theorem insertAt_length {l : List α} {n : Nat} (x : α) (h : n ≤ l.length) :
    (insertAt l n x).length = l.length + 1 := by
  unfold insertAt
  simp only [List.length_append, List.length_take, List.length_cons,
    List.length_drop]
  omega

theorem insertAt_head? {l : List α} {n : Nat} (x : α) (hpos : 0 < n)
    (hne : l ≠ []) : (insertAt l n x).head? = l.head? := by
  cases l with
  | nil => exact absurd rfl hne
  | cons a r =>
    cases n with
    | zero => exact absurd hpos (by omega)
    | succ m => rfl

theorem insertAt_getLast? {l : List α} {n : Nat} (x : α) (h : n < l.length) :
    (insertAt l n x).getLast? = l.getLast? := by
  unfold insertAt
  have hB : l.drop n ≠ [] := by
    intro hB
    have := List.drop_eq_nil_iff_le.mp hB
    omega
  rw [List.getLast?_append_of_ne_nil _ (by simp : (x :: l.drop n) ≠ [])]
  rw [show x :: l.drop n = [x] ++ l.drop n from rfl,
    List.getLast?_append_of_ne_nil _ hB]
  conv_rhs => rw [← List.take_append_drop n l,
    List.getLast?_append_of_ne_nil _ hB]

/-- **C1 (counterexample to the claim as stated).** At initialization
(sat.rs lines 266–271) an occupation is created with
`delays = [(TRUE, earliest), (FALSE, i32::MAX)]` while no chain clause has
been added to the solver, so at that execution point the adjacent pair
`(TRUE, earliest), (FALSE, i32::MAX)` has no chain clause `¬n ∨ p` in the
(empty) clause database: the invariant as stated fails. -/
theorem c1_counterexample :
    ¬ chainClausesAdded ([] : List Clause) (initOcc 0).delays := by
  intro h
  simp [chainClausesAdded, initOcc] at h

/-- **C1 (amended).** For every occupation: `delays` is strictly increasing
in time, its first literal is the constant TRUE, its last pair is the
constant FALSE at `i32::MAX`, and every adjacent pair `(p, t_p), (n, t_n)`
has its chain clause `¬n ∨ p` added to the solver — except the sentinel
adjacency `(TRUE, FALSE)` created at initialization, for which no clause is
added (its implication is trivially valid).  The invariant holds of the
occupation created at initialization (for any earliest time below the
sentinel), and `time_point` — the only mutator of `delays` — preserves it,
only ever appending to the solver's clause database. -/
theorem c1_occ_invariant :
    (∀ (db : List Clause) (e : Int), e < i32Max → occInvariant db (initOcc e)) ∧
    (∀ (o : Occ) (s : SatState) (t : Int) (lit : BoolL) (isNew : Bool)
        (o' : Occ) (s' : SatState),
      occInvariant s.clauses o →
      o.time_point s t = some (lit, isNew, o', s') →
      s.clauses <+: s'.clauses ∧ occInvariant s'.clauses o') := by
  constructor
  · intro db e he
    refine ⟨?_, rfl, rfl, ?_⟩
    · exact List.chain'_cons.mpr ⟨he, List.chain'_singleton _⟩
    · exact List.chain'_cons.mpr ⟨Or.inr ⟨rfl, rfl⟩, List.chain'_singleton _⟩
  · intro o s t lit isNew o' s' hinv h
    obtain ⟨hs, hhead, hlast, hchain⟩ := hinv
    simp only [Occ.time_point, SatState.newVar, SatState.addClause] at h
    by_cases hnil : o.delays = []
    · rw [if_pos hnil] at h
      cases h
    rw [if_neg hnil] at h
    by_cases hguard : ¬(0 < partPoint o.delays t ∨
        t = (o.delays.getD 0 (BoolL.const true, 0)).2)
    · rw [if_pos hguard] at h
      cases h
    rw [if_neg hguard] at h
    rw [not_not] at hguard
    by_cases hlen : ¬(partPoint o.delays t < o.delays.length)
    · rw [if_pos hlen] at h
      cases h
    rw [if_neg hlen] at h
    rw [not_not] at hlen
    by_cases hre : (o.delays.getD (partPoint o.delays t)
          (BoolL.const true, 0)).2 = t ∨
        (0 < partPoint o.delays t ∧
          (o.delays.get? (partPoint o.delays t - 1)).map Prod.snd = some t)
    · -- reuse branch: nothing changes
      rw [if_pos hre] at h
      simp only [Option.some.injEq, Prod.mk.injEq] at h
      obtain ⟨-, -, ho, hs'⟩ := h
      rw [← ho, ← hs']
      exact ⟨List.prefix_refl _, hs, hhead, hlast, hchain⟩
    · -- insertion branch
      rw [if_neg hre] at h
      push_neg at hre
      obtain ⟨hdi_ne, -⟩ := hre
      have hpos : 0 < partPoint o.delays t := by
        rcases hguard with hp | ht
        · exact hp
        · rcases Nat.eq_zero_or_pos (partPoint o.delays t) with h0 | hp
          · exact absurd (by rw [h0, ht]) hdi_ne
          · exact hp
      have hget : o.delays.get? (partPoint o.delays t) =
          some (o.delays.getD (partPoint o.delays t) (BoolL.const true, 0)) := by
        cases hgx : o.delays.get? (partPoint o.delays t) with
        | none =>
          have hh := List.get?_eq_none.mp hgx
          omega
        | some d =>
          have hd : o.delays.getD (partPoint o.delays t)
              (BoolL.const true, 0) = d := by
            show (o.delays.get? _).getD _ = d
            rw [hgx]
            rfl
          rw [hd]
      have hlen2 : partPoint o.delays t <
          (insertAt o.delays (partPoint o.delays t)
            (BoolL.lit s.nextVar true, t)).length := by
        rw [insertAt_length _ (le_of_lt hlen)]
        omega
      rw [if_pos hpos, if_pos hlen2] at h
      simp only [Option.some.injEq, Prod.mk.injEq] at h
      obtain ⟨-, -, ho, hs'⟩ := h
      rw [← ho, ← hs']
      refine ⟨⟨[[(BoolL.lit s.nextVar true).neg,
          (o.delays.getD (partPoint o.delays t - 1) (BoolL.const true, 0)).1],
          [(o.delays.getD (partPoint o.delays t) (BoolL.const true, 0)).1.neg,
           BoolL.lit s.nextVar true]], by simp⟩, ?_, ?_, ?_, ?_⟩
      · -- sorted
        refine chain'_insertAt hs ?_ ?_ (le_of_lt hlen)
        · intro a ha _
          have hmem : a ∈ o.delays.take (partPoint o.delays t) := by
            refine List.get?_mem (n := partPoint o.delays t - 1) ?_
            rw [List.get?_take (Nat.sub_lt hpos one_pos)]
            exact ha
          exact mem_take_partPoint hmem
        · intro b hb
          have hle := get_partPoint_ge hb
          have hbd : b = o.delays.getD (partPoint o.delays t)
              (BoolL.const true, 0) := by
            rw [hget] at hb
            injection hb with hb
            exact hb.symm
          rcases lt_or_eq_of_le hle with hlt | heq
          · exact hlt
          · exact absurd (by rw [← hbd, ← heq]) hdi_ne
      · -- head literal TRUE
        show ((insertAt o.delays (partPoint o.delays t)
            (BoolL.lit s.nextVar true, t)).head?).map Prod.fst = _
        rw [insertAt_head? _ hpos hnil]
        exact hhead
      · -- last pair FALSE at +infinity
        show (insertAt o.delays (partPoint o.delays t)
            (BoolL.lit s.nextVar true, t)).getLast? = _
        rw [insertAt_getLast? _ hlen]
        exact hlast
      · -- chain clauses (amended)
        refine chain'_insertAt (List.Chain'.imp ?_ hchain) ?_ ?_ (le_of_lt hlen)
        · intro a b hab
          rcases hab with hm | hsent
          · exact Or.inl (by simp [hm])
          · exact Or.inr hsent
        · intro a ha _
          refine Or.inl ?_
          have hpa : (o.delays.getD (partPoint o.delays t - 1)
              (BoolL.const true, 0)).1 = a.1 := by
            have : o.delays.getD (partPoint o.delays t - 1)
                (BoolL.const true, 0) = a := by
              show (o.delays.get? _).getD _ = a
              rw [ha]
              rfl
            rw [this]
          rw [← hpa]
          simp
        · intro b hb
          refine Or.inl ?_
          have hbd : (o.delays.getD (partPoint o.delays t)
              (BoolL.const true, 0)).1 = b.1 := by
            rw [hget] at hb
            injection hb with hb
            rw [hb]
          rw [← hbd]
          simp

/-- Witness for C1 at a concrete input: the initial occupation at earliest
0 satisfies the invariant with an empty clause database, and inserting time
5 preserves it, appending exactly the two chain clauses. -/
theorem c1_witness :
    occInvariant ([] : List Clause) (initOcc 0) ∧
    (({ nextVar := 0, clauses := [] } : SatState).clauses <+:
        ({ nextVar := 1,
           clauses := [[BoolL.lit 0 false, BoolL.const true],
             [BoolL.const true, BoolL.lit 0 true]] } : SatState).clauses ∧
      occInvariant
        ({ nextVar := 1,
           clauses := [[BoolL.lit 0 false, BoolL.const true],
             [BoolL.const true, BoolL.lit 0 true]] } : SatState).clauses
        { cost := [BoolL.const true]
          delays := [(BoolL.const true, 0), (BoolL.lit 0 true, 5),
            (BoolL.const false, i32Max)]
          incumbent_idx := 0 }) :=
  have h1 : occInvariant ([] : List Clause) (initOcc 0) :=
    c1_occ_invariant.1 [] 0 (by norm_num [i32Max])
  ⟨h1,
    c1_occ_invariant.2 (initOcc 0) { nextVar := 0, clauses := [] } 5
      (BoolL.lit 0 true) true
      { cost := [BoolL.const true]
        delays := [(BoolL.const true, 0), (BoolL.lit 0 true, 5),
          (BoolL.const false, i32Max)]
        incumbent_idx := 0 }
      { nextVar := 1,
        clauses := [[BoolL.lit 0 false, BoolL.const true],
          [BoolL.const true, BoolL.lit 0 true]] }
      h1 (by decide)⟩

/-- After `budgetRebuild`, the cache matches the current units and covers
the requested bound whenever it holds a totalizer. -/
theorem budgetRebuild_fields (units : List BoolL) (tN : Nat) (bst : BudgetSt)
    (s : SatState) (htot : (budgetRebuild units tN bst s).1.budget_tot.isSome) :
    (budgetRebuild units tN bst s).1.budget_tot_len = units.length ∧
    tN ≤ (budgetRebuild units tN bst s).1.budget_tot_max_bound := by
  unfold budgetRebuild at htot ⊢
  by_cases hc : (bst.budget_tot.isNone || bst.budget_tot_len != units.length
      || decide (bst.budget_tot_max_bound < tN)) = true
  · rw [if_pos hc]
    exact ⟨rfl, le_refl _⟩
  · rw [if_neg hc]
    simp only [Bool.or_eq_true, not_or, bne_iff_ne, ne_eq,
      decide_eq_true_eq, Bool.not_eq_true, Option.isNone_eq_false_iff] at hc
    obtain ⟨⟨-, hlen⟩, hmax⟩ := hc
    constructor
    · show bst.budget_tot_len = units.length
      exact not_ne_iff.mp hlen
    · show tN ≤ bst.budget_tot_max_bound
      omega

/-- **C4.** In UbSearch mode with `upper_bound` known and not below
`lower_bound`, the budget bound is `target_ub = upper_bound` under
`AddClauses` and `target_ub = (lower_bound + upper_bound) / 2` under
`Assumptions` (the `targetUb` of the step); when `target_ub < |budget_units|`
the bound literal is `¬tot.rhs[target_ub]` and it is (i) added as a
permanent unit clause exactly when `last_added_bound` differs from
`target_ub`, recording the new bound — so re-running the step at the same
`target_ub` adds no second copy (last conjunct) — or (ii) passed as the
single assumption of the solve call, adding no clause, under
`Assumptions`. -/
theorem c4_budget_bound (mode : SatBoundMode) (ub lb : Int)
    (best : Option (Int × Sched)) (units : List BoolL)
    (bst bstR : BudgetSt) (s sR : SatState) (tot : Totalizer) (r : BoolL)
    (hle : lb ≤ ub)
    (htN : (targetUb mode lb ub).toNat < units.length)
    (hreb : budgetRebuild units (targetUb mode lb ub).toNat bst s = (bstR, sR))
    (htot : bstR.budget_tot = some tot)
    (hr : tot.rhs.get? (targetUb mode lb ub).toNat = some r) :
    (mode = .AddClauses →
      bstR.last_added_bound ≠ some (targetUb mode lb ub).toNat →
      budgetStep .UbSearch mode (some ub) lb best units bst s =
        some (.proceed none (some (targetUb mode lb ub))
          { bstR with last_added_bound := some (targetUb mode lb ub).toNat }
          (sR.addClause [r.neg]))) ∧
    (mode = .AddClauses →
      bstR.last_added_bound = some (targetUb mode lb ub).toNat →
      budgetStep .UbSearch mode (some ub) lb best units bst s =
        some (.proceed none (some (targetUb mode lb ub)) bstR sR)) ∧
    (mode = .Assumptions →
      budgetStep .UbSearch mode (some ub) lb best units bst s =
        some (.proceed (some r.neg) (some (targetUb mode lb ub)) bstR sR)) ∧
    (mode = .AddClauses →
      budgetStep .UbSearch mode (some ub) lb best units
          { bstR with last_added_bound := some (targetUb mode lb ub).toNat }
          (sR.addClause [r.neg]) =
        some (.proceed none (some (targetUb mode lb ub))
          { bstR with last_added_bound := some (targetUb mode lb ub).toNat }
          (sR.addClause [r.neg]))) := by
  have hsome : ((budgetRebuild units (targetUb mode lb ub).toNat bst s).1).budget_tot.isSome := by
    rw [hreb]
    show bstR.budget_tot.isSome
    rw [htot]
    rfl
  have hfields := budgetRebuild_fields units (targetUb mode lb ub).toNat bst s hsome
  rw [hreb] at hfields
  obtain ⟨hflen0, hfmax0⟩ := hfields
  have hflen : bstR.budget_tot_len = units.length := hflen0
  have hfmax : (targetUb mode lb ub).toNat ≤ bstR.budget_tot_max_bound := hfmax0
  have htot2 : ({ bstR with last_added_bound := some (targetUb mode lb ub).toNat } : BudgetSt).budget_tot = some tot := htot
  have hnoreb : budgetRebuild units (targetUb mode lb ub).toNat
      { bstR with last_added_bound := some (targetUb mode lb ub).toNat }
      (sR.addClause [r.neg]) =
      ({ bstR with last_added_bound := some (targetUb mode lb ub).toNat },
        sR.addClause [r.neg]) := by
    unfold budgetRebuild
    rw [if_neg]
    have hup1 : ({ bstR with last_added_bound := some (targetUb mode lb ub).toNat } : BudgetSt).budget_tot_len = units.length := hflen
    have hup2 : ¬(({ bstR with last_added_bound := some (targetUb mode lb ub).toNat } : BudgetSt).budget_tot_max_bound < (targetUb mode lb ub).toNat) := Nat.not_lt.mpr hfmax
    simp [htot2, hup1, hup2, htot, hflen]
  refine ⟨?_, ?_, ?_, ?_⟩
  · intro hm hne
    subst hm
    simp only [budgetStep, if_pos rfl, if_neg (not_lt.mpr hle), if_pos htN,
      hreb, htot, hr]
    simp [hne]
  · intro hm heq
    subst hm
    simp only [budgetStep, if_pos rfl, if_neg (not_lt.mpr hle), if_pos htN,
      hreb, htot, hr]
    simp [heq, htot]
  · intro hm
    subst hm
    simp only [budgetStep, if_pos rfl, if_neg (not_lt.mpr hle), if_pos htN,
      hreb, htot, hr]
    simp
  · intro hm
    subst hm
    simp only [budgetStep, if_pos rfl, if_neg (not_lt.mpr hle), if_pos htN,
      hnoreb, htot2, hr]
    simp [htot]

/-- Witness for C4 at a concrete input: two budget units, `lb = 0`,
`ub = 1`, AddClauses mode.  The step rebuilds the totalizer, uses
`target_ub = 1`, and adds the unit clause `¬tot.rhs[1]`. -/
theorem c4_witness :
    targetUb .AddClauses 0 1 = 1 ∧
    budgetStep .UbSearch .AddClauses (some 1) 0 none
        [BoolL.lit 0 true, BoolL.lit 1 true] initBudgetSt
        { nextVar := 2, clauses := [] } =
      some (.proceed none (some 1)
        { budget_tot := some { rhs := [BoolL.lit 2 true, BoolL.lit 3 true] }
          budget_tot_len := 2
          budget_tot_max_bound := 1
          last_added_bound := some 1 }
        { nextVar := 4, clauses := [[BoolL.lit 3 false]] }) :=
  ⟨rfl,
    (c4_budget_bound .AddClauses 1 0 none [BoolL.lit 0 true, BoolL.lit 1 true]
      initBudgetSt
      { budget_tot := some { rhs := [BoolL.lit 2 true, BoolL.lit 3 true] }
        budget_tot_len := 2
        budget_tot_max_bound := 1
        last_added_bound := none }
      { nextVar := 2, clauses := [] } { nextVar := 4, clauses := [] }
      { rhs := [BoolL.lit 2 true, BoolL.lit 3 true] } (BoolL.lit 3 true)
      (by norm_num) (by decide) (by decide) rfl (by decide)).1 rfl (by decide)⟩

/-- Shape of the pairwise SCL clause block: one three-literal clause
`¬in_var ∨ ¬lit_j ∨ lit_{j+1}` per `j ∈ [0, n)`, in loop order. -/
theorem pairwiseClauses_spec {delays : List (BoolL × Int)} {in_var : BoolL}
    {n : Nat} {cls : List Clause}
    (h : pairwiseClauses delays in_var n = some cls) :
    cls.length = n ∧
    ∀ j a b, j < n → delays.get? j = some a → delays.get? (j + 1) = some b →
      cls.get? j = some [in_var.neg, a.1.neg, b.1] := by
  induction n generalizing cls with
  | zero =>
    simp only [pairwiseClauses, Option.some.injEq] at h
    subst h
    refine ⟨rfl, ?_⟩
    intro j a b hj
    omega
  | succ m ih =>
    simp only [pairwiseClauses] at h
    split at h
    · rename_i cls' a' b' hrec hga hgb
      simp only [Option.some.injEq] at h
      subst h
      obtain ⟨hlen, hspec⟩ := ih hrec
      constructor
      · simp [hlen]
      · intro j a b hj hja hjb
        rcases Nat.lt_succ_iff_lt_or_eq.mp hj with hjm | hjeq
        · rw [List.get?_append (by omega)]
          exact hspec j a b hjm hja hjb
        · subst hjeq
          rw [List.get?_append_right (by omega)]
          have ha : a = a' := Option.some.inj (hja.symm.trans hga)
          have hb : b = b' := Option.some.inj (hjb.symm.trans hgb)
          rw [ha, hb, hlen, Nat.sub_self]
          rfl
    · cases h

/-- **C6.** In the SCL encoding, processing a fixed-precedence row for a
ladder point `(visit, in_t)` with literal `in_var` enforces — exactly once
per `(visit, in_t)` pair, via `scl_fixed_prec_rows` — that the next visit
of the same train is at time `≥ req_t = in_t + travel`: with `idx` the
partition point of the successor's delays at `req_t` (after `req_t` itself
was inserted by `time_point`), if `idx ≤ 5` the three-literal clause
`in_var ∧ lit_j → lit_{j+1}` is added for each `j ∈ [0, idx)` (the
`pairwiseClauses` block, whose shape `pairwiseClauses_spec` pins down),
otherwise the single clause `in_var → req_var` is added, `req_var` being
the successor's ladder literal at `req_t`.  Re-running the row on the
result is a no-op (last conjunct). -/
theorem c6_scl_fixed_precedence (problem : Problem) (visits : List (Nat × Nat))
    (st : PassSt) (visit_id : Nat) (in_var : BoolL) (in_t : Int)
    (ti vi : Nat) (train : Train) (v : Visit) (nocc : Occ) (d0 : BoolL × Int)
    (req_var : BoolL) (is_new : Bool) (nocc2 : Occ) (s2 : SatState)
    (cls0 : List Clause)
    (hmem : (visit_id, in_t) ∉ st.sclRows)
    (hv : visits.get? visit_id = some (ti, vi))
    (htr : problem.trains.get? ti = some train)
    (hsucc : vi + 1 < train.visits.length)
    (hvv : train.visits.get? vi = some v)
    (hocc : st.occs.get? (visit_id + 1) = some nocc)
    (hd0 : nocc.delays.get? 0 = some d0)
    (hreq : d0.2 < in_t + v.travel_time)
    (htp : nocc.time_point st.s (in_t + v.travel_time) =
      some (req_var, is_new, nocc2, s2))
    (hpw : pairwiseClauses nocc2.delays in_var
      (partPoint nocc2.delays (in_t + v.travel_time)) = some cls0) :
    ∃ stF, add_fixed_precedence_scl problem visits st visit_id in_var in_t =
        some stF ∧
      stF.sclRows = (visit_id, in_t) :: st.sclRows ∧
      stF.occs = st.occs.set (visit_id + 1) nocc2 ∧
      (partPoint nocc2.delays (in_t + v.travel_time) ≤ 5 →
        stF.s.clauses = s2.clauses ++ cls0 ∧
        cls0.length = partPoint nocc2.delays (in_t + v.travel_time) ∧
        (∀ j a b, j < partPoint nocc2.delays (in_t + v.travel_time) →
          nocc2.delays.get? j = some a → nocc2.delays.get? (j + 1) = some b →
          cls0.get? j = some [in_var.neg, a.1.neg, b.1])) ∧
      (5 < partPoint nocc2.delays (in_t + v.travel_time) →
        stF.s.clauses = s2.clauses ++ [[in_var.neg, req_var]]) ∧
      add_fixed_precedence_scl problem visits stF visit_id in_var in_t =
        some stF := by
  have hset : (st.occs.set (visit_id + 1) nocc2).get? (visit_id + 1) =
      some nocc2 := by
    have hlt := (List.get?_eq_some.mp hocc).1
    simp [List.get?_set, hlt]
  by_cases hidx : partPoint nocc2.delays (in_t + v.travel_time) ≤ 5
  · refine ⟨{ occs := st.occs.set (visit_id + 1) nocc2
              s := s2.addClauses cls0
              deconf := st.deconf
              cvars := st.cvars
              sclRows := (visit_id, in_t) :: st.sclRows
              ntps := if is_new then
                  st.ntps ++ [(visit_id + 1, req_var, in_t + v.travel_time)]
                else st.ntps
              foundRes := st.foundRes
              nConflict := st.nConflict
              events := st.events
              retained := st.retained }, ?_, rfl, rfl, ?_, ?_, ?_⟩
    · unfold add_fixed_precedence_scl occTimePoint
      rw [if_neg hmem]
      simp only [hv, htr, hvv, hocc, hd0, htp, hset, Option.bind_eq_bind,
        Option.some_bind]
      rw [if_neg (not_le.mpr hsucc), if_neg (not_le.mpr hreq),
        if_pos hidx, hpw]
      cases is_new with
      | true => rfl
      | false => rfl
    · intro _
      have hspec := pairwiseClauses_spec hpw
      exact ⟨rfl, hspec.1, hspec.2⟩
    · intro hgt
      exact absurd hidx (not_le.mpr hgt)
    · unfold add_fixed_precedence_scl
      rw [if_pos (List.mem_cons_self _ _)]
  · refine ⟨{ occs := st.occs.set (visit_id + 1) nocc2
              s := s2.addClause [in_var.neg, req_var]
              deconf := st.deconf
              cvars := st.cvars
              sclRows := (visit_id, in_t) :: st.sclRows
              ntps := if is_new then
                  st.ntps ++ [(visit_id + 1, req_var, in_t + v.travel_time)]
                else st.ntps
              foundRes := st.foundRes
              nConflict := st.nConflict
              events := st.events
              retained := st.retained }, ?_, rfl, rfl, ?_, ?_, ?_⟩
    · unfold add_fixed_precedence_scl occTimePoint
      rw [if_neg hmem]
      simp only [hv, htr, hvv, hocc, hd0, htp, hset, Option.bind_eq_bind,
        Option.some_bind]
      rw [if_neg (not_le.mpr hsucc), if_neg (not_le.mpr hreq), if_neg hidx]
      cases is_new with
      | true => rfl
      | false => rfl
    · intro hle
      exact absurd hle hidx
    · intro _
      rfl
    · unfold add_fixed_precedence_scl
      rw [if_pos (List.mem_cons_self _ _)]

/-- Witness for C6 at a concrete input: one train with two visits, SCL row
for the first visit's earliest ladder point; the run succeeds (inserting
time 5 into the successor and adding the pairwise clause block). -/
theorem c6_witness :
    (add_fixed_precedence_scl
      { trains := [{ visits := [{ resource_id := 0, earliest := 0, travel_time := 5 },
          { resource_id := 1, earliest := 2, travel_time := 3 }] }]
        conflicts := [] }
      [(0, 0), (0, 1)]
      { occs := [initOcc 0, initOcc 2]
        s := { nextVar := 0, clauses := [] }
        deconf := []
        cvars := []
        sclRows := []
        ntps := []
        foundRes := false
        nConflict := 0
        events := []
        retained := [] }
      0 (BoolL.const true) 0).isSome = true := by
  obtain ⟨stF, heq, -⟩ := c6_scl_fixed_precedence
    { trains := [{ visits := [{ resource_id := 0, earliest := 0, travel_time := 5 },
        { resource_id := 1, earliest := 2, travel_time := 3 }] }]
      conflicts := [] }
    [(0, 0), (0, 1)]
    { occs := [initOcc 0, initOcc 2]
      s := { nextVar := 0, clauses := [] }
      deconf := []
      cvars := []
      sclRows := []
      ntps := []
      foundRes := false
      nConflict := 0
      events := []
      retained := [] }
    0 (BoolL.const true) 0 0 0
    { visits := [{ resource_id := 0, earliest := 0, travel_time := 5 },
      { resource_id := 1, earliest := 2, travel_time := 3 }] }
    { resource_id := 0, earliest := 0, travel_time := 5 }
    (initOcc 2) (BoolL.const true, 2) (BoolL.lit 0 true) true
    { cost := [BoolL.const true]
      delays := [(BoolL.const true, 2), (BoolL.lit 0 true, 5),
        (BoolL.const false, i32Max)]
      incumbent_idx := 0 }
    { nextVar := 1
      clauses := [[BoolL.lit 0 false, BoolL.const true],
        [BoolL.const true, BoolL.lit 0 true]] }
    [[BoolL.const false, BoolL.const false, BoolL.lit 0 true]]
    (by decide) (by decide) (by decide) (by decide) (by decide) (by decide)
    (by decide) (by decide) (by decide) (by decide)
  rw [heq]
  rfl

theorem ubTightened_refl (ub : Option Int) : ubTightened ub ub :=
  fun b hb => ⟨b, hb, le_refl b⟩

theorem ubTightened_trans {a b c : Option Int} (h1 : ubTightened a b)
    (h2 : ubTightened b c) : ubTightened a c := by
  intro x hx
  obtain ⟨y, hy, hyx⟩ := h2 x hx
  obtain ⟨z, hz, hzy⟩ := h1 y hy
  exact ⟨z, hz, le_trans hzy hyx⟩

theorem tightenUb_tightens (ub : Option Int) (c : Int) :
    ubTightened (tightenUb ub c) ub := by
  intro b hb
  cases ub with
  | none => cases hb
  | some u =>
    have hbu : u = b := Option.some.inj hb
    subst hbu
    exact ⟨min u (c - 1), rfl, min_le_left _ _⟩

theorem drainHeur_mono (search : SatSearchMode) (props : List (Int × Sched)) :
    ∀ best ub, ubTightened (drainHeur search best ub props).2 ub := by
  induction props with
  | nil =>
    intro best ub
    exact ubTightened_refl ub
  | cons p rest ih =>
    intro best ub
    simp only [drainHeur]
    refine ubTightened_trans (ih _ _) ?_
    by_cases hs : search = SatSearchMode.UbSearch
    · rw [if_pos hs]
      exact tightenUb_tightens ub p.1
    · rw [if_neg hs]
      exact ubTightened_refl ub

/-- Whenever the budget step reports a `bound_used`, that bound is at least
the current lower bound (the mechanism behind "lower_bound never
decreases"). -/
theorem budgetStep_bound_used (mode : SatBoundMode) (ub : Option Int)
    (lb : Int) (best : Option (Int × Sched)) (units : List BoolL)
    (bst : BudgetSt) (s : SatState) (a : Option BoolL) (bu : Option Int)
    (bst' : BudgetSt) (s' : SatState) (hlb0 : 0 ≤ lb)
    (h : budgetStep .UbSearch mode ub lb best units bst s =
      some (.proceed a bu bst' s')) :
    bu = none ∨ ∃ b, bu = some b ∧ lb ≤ b := by
  cases ub with
  | none =>
    unfold budgetStep at h
    rw [if_pos rfl] at h
    simp only [Option.some.injEq, BudgetOut.proceed.injEq] at h
    exact Or.inl h.2.1.symm
  | some u =>
    unfold budgetStep at h
    rw [if_pos rfl] at h
    dsimp only at h
    by_cases hu : u < lb
    · rw [if_pos hu] at h
      cases best <;> simp at h
    · rw [if_neg hu] at h
      by_cases htn : (targetUb mode lb u).toNat < units.length
      · rw [if_pos htn] at h
        cases htot : (budgetRebuild units (targetUb mode lb u).toNat bst s).1.budget_tot with
        | none =>
          simp only [htot, Option.some.injEq, BudgetOut.proceed.injEq] at h
          exact Or.inl h.2.1.symm
        | some tot =>
          simp only [htot] at h
          cases hr : tot.rhs.get? (targetUb mode lb u).toNat with
          | none =>
            simp only [hr] at h
            exact Option.noConfusion h
          | some r =>
            simp only [hr] at h
            have hlbt : lb ≤ targetUb mode lb u := by
              cases mode with
              | AddClauses => exact not_lt.mp hu
              | Assumptions =>
                show lb ≤ (lb + u).div 2
                have h1 : (lb + u).div 2 = (lb + u) / 2 :=
                  Int.div_eq_ediv (by omega) (by omega)
                rw [h1]
                omega
            refine Or.inr ⟨targetUb mode lb u, ?_, hlbt⟩
            cases mode with
            | AddClauses =>
              by_cases hlast : (budgetRebuild units
                  (targetUb SatBoundMode.AddClauses lb u).toNat bst s).1.last_added_bound ≠
                  some (targetUb SatBoundMode.AddClauses lb u).toNat
              · rw [if_pos hlast] at h
                simp only [Option.some.injEq, BudgetOut.proceed.injEq] at h
                exact h.2.1.symm
              · rw [if_neg hlast] at h
                simp only [Option.some.injEq, BudgetOut.proceed.injEq] at h
                exact h.2.1.symm
            | Assumptions =>
              simp only [Option.some.injEq, BudgetOut.proceed.injEq] at h
              exact h.2.1.symm
      · rw [if_neg htn] at h
        simp only [Option.some.injEq, BudgetOut.proceed.injEq] at h
        exact Or.inl h.2.1.symm

theorem handleUnsat_cont (best : Option (Int × Sched)) (bu ub : Option Int)
    (lb lb' : Int) (h : handleUnsat .UbSearch best bu ub lb = .cont lb') :
    ∃ b, bu = some b ∧ lb' = b + 1 := by
  cases bu with
  | none => simp [handleUnsat] at h
  | some b =>
    refine ⟨b, rfl, ?_⟩
    cases best with
    | none =>
      simp only [handleUnsat, UnsatOut.cont.injEq] at h
      exact h.symm
    | some cs =>
      cases ub with
      | none =>
        simp only [handleUnsat, UnsatOut.cont.injEq] at h
        exact h.symm
      | some u =>
        by_cases hlt : u < b + 1
        · simp only [handleUnsat, if_pos hlt] at h
          exact UnsatOut.noConfusion h
        · simp only [handleUnsat, if_neg hlt, UnsatOut.cont.injEq] at h
          exact h.symm

/-- In Invalid search mode the whole budget-enforcement block is skipped:
no totalizer, no bound clause, no assumption, nothing changed. -/
theorem budgetStep_invalid (mode : SatBoundMode) (ub : Option Int) (lb : Int)
    (best : Option (Int × Sched)) (units : List BoolL) (bst : BudgetSt)
    (s : SatState) :
    budgetStep .Invalid mode ub lb best units bst s =
      some (.proceed none none bst s) := by
  unfold budgetStep
  rw [if_neg (by simp : ¬(SatSearchMode.Invalid = SatSearchMode.UbSearch))]

/-- An early (pre-solve) return is always an `Ok` result, never a next
state. -/
theorem preSolve_done_inl (search : SatSearchMode) (inp : IterInput)
    (st0 : DriverSt) (r : StepRes)
    (h : preSolve search inp st0 = some (.done r)) :
    ∃ sch, r = { solved := none, out := Sum.inl (.ok sch) } := by
  unfold preSolve at h
  split at h
  · split at h
    · simp at h
    · split at h
      · dsimp only at h
        split at h
        · split at h
          · split at h
            · simp only [Option.some.injEq, PreOut.done.injEq] at h
              exact ⟨_, h.symm⟩
            · cases h
          · simp at h
        · simp at h
      · simp at h
  · simp at h

/-- The pre-solve phase in UbSearch mode never touches `lower_bound` and
only ever tightens `upper_bound`. -/
theorem preSolve_go_bounds (inp : IterInput) (st0 st2 : DriverSt)
    (h : preSolve .UbSearch inp st0 = some (.go st2)) :
    st2.lower_bound = st0.lower_bound ∧
    ubTightened st2.upper_bound st0.upper_bound := by
  unfold preSolve at h
  split at h
  · split at h
    · simp only [Option.some.injEq, PreOut.go.injEq] at h
      subst h
      exact ⟨rfl, drainHeur_mono _ _ _ _⟩
    · split at h
      · dsimp only at h
        split at h
        · split at h
          · split at h
            · simp at h
            · cases h
          · simp only [Option.some.injEq, PreOut.go.injEq] at h
            subst h
            exact ⟨rfl,
              ubTightened_trans (tightenUb_tightens _ _) (drainHeur_mono _ _ _ _)⟩
        · rename_i heq
          simp only [tightenUb] at heq
          cases heq
      · rename_i hne
        exact absurd rfl hne
  · simp only [Option.some.injEq, PreOut.go.injEq] at h
    subst h
    exact ⟨rfl, ubTightened_refl _⟩

/-- The pre-solve phase in Invalid mode never touches `lower_bound` or the
budget state. -/
theorem preSolve_invalid_go (inp : IterInput) (st0 st2 : DriverSt)
    (h : preSolve .Invalid inp st0 = some (.go st2)) :
    st2.lower_bound = st0.lower_bound ∧ st2.bst = st0.bst := by
  unfold preSolve at h
  split at h
  · split at h
    · simp only [Option.some.injEq, PreOut.go.injEq] at h
      subst h
      exact ⟨rfl, rfl⟩
    · split at h
      · rename_i hne
        cases hne
      · dsimp only at h
        split at h
        · simp only [Option.some.injEq, PreOut.go.injEq] at h
          subst h
          exact ⟨rfl, rfl⟩
        · simp only [Option.some.injEq, PreOut.go.injEq] at h
          subst h
          exact ⟨rfl, rfl⟩
  · simp only [Option.some.injEq, PreOut.go.injEq] at h
    subst h
    exact ⟨rfl, rfl⟩

/-- The budget/solve phase in UbSearch mode: the upper bound is untouched
and the lower bound can only move up (to `bound_used + 1` on UNSAT). -/
theorem solvePhase_ubsearch (mode : SatBoundMode) (inp : IterInput)
    (st : DriverSt) (res : StepRes) (hlb0 : 0 ≤ st.lower_bound)
    (h : solvePhase mode .UbSearch inp st = some res) :
    ∀ st', res.out = Sum.inr st' →
      st.lower_bound ≤ st'.lower_bound ∧
      st'.upper_bound = st.upper_bound := by
  intro st' hst'
  unfold solvePhase at h
  split at h
  · cases h
  · rw [← Option.some.inj h] at hst'
    simp at hst'
  · rw [← Option.some.inj h] at hst'
    simp at hst'
  · rename_i a bu bst' s' heq
    split at h
    · rw [← Option.some.inj h] at hst'
      simp only at hst'
      have hst2 := Sum.inr.inj hst'
      rw [← hst2]
      exact ⟨le_refl _, rfl⟩
    · dsimp only at h
      split at h
      · rw [← Option.some.inj h] at hst'
        simp at hst'
      · rw [← Option.some.inj h] at hst'
        simp at hst'
      · rename_i lb' hequ
        rw [← Option.some.inj h] at hst'
        simp only at hst'
        have hst2 := Sum.inr.inj hst'
        rw [← hst2]
        obtain ⟨b, hbu, hlb'⟩ := handleUnsat_cont _ _ _ _ _ hequ
        rcases budgetStep_bound_used mode st.upper_bound st.lower_bound
            st.best_sol st.budget_units st.bst st.sat a bu bst' s' hlb0 heq with
          hnone | ⟨b2, hb2, hleb⟩
        · rw [hnone] at hbu
          cases hbu
        · rw [hb2] at hbu
          have hbb : b2 = b := Option.some.inj hbu
          subst hbb
          constructor
          · show st.lower_bound ≤ lb'
            omega
          · rfl

/-- One UbSearch iteration never decreases `lower_bound` (which stays
nonnegative) and never increases `upper_bound`. -/
theorem driverIter_ubsearch_mono (mode : SatBoundMode) (inp : IterInput)
    (st : DriverSt) (res : StepRes) (hlb0 : 0 ≤ st.lower_bound)
    (h : driverIter mode .UbSearch inp st = some res) :
    ∀ st', res.out = Sum.inr st' →
      st.lower_bound ≤ st'.lower_bound ∧ 0 ≤ st'.lower_bound ∧
      ubTightened st'.upper_bound st.upper_bound := by
  intro st' hst'
  unfold driverIter at h
  split at h
  · cases h
  · rename_i r heq
    rw [← Option.some.inj h] at hst'
    obtain ⟨sch, hr⟩ := preSolve_done_inl _ _ _ _ heq
    rw [hr] at hst'
    simp at hst'
  · rename_i stg heq
    obtain ⟨hlbeq, hubt⟩ := preSolve_go_bounds inp st stg heq
    have hlb0g : 0 ≤ stg.lower_bound := by omega
    obtain ⟨hle, hub⟩ := solvePhase_ubsearch mode inp stg res hlb0g h st' hst'
    refine ⟨by omega, by omega, ?_⟩
    rw [hub]
    exact hubt

/-- Every state reachable in a UbSearch run keeps `lower_bound ≥ 0`. -/
theorem runDriver_ubsearch_lb_nonneg (mode : SatBoundMode)
    (oracle : Nat → IterInput) (s0 : SatState) :
    ∀ n st', runDriver mode .UbSearch oracle (initDriverSt s0) n =
      some (.inr st') → 0 ≤ st'.lower_bound := by
  intro n
  induction n with
  | zero =>
    intro st' h
    simp only [runDriver] at h
    have h2 := Sum.inr.inj (Option.some.inj h)
    rw [← h2]
    exact le_refl 0
  | succ k ih =>
    intro st' h
    simp only [runDriver] at h
    split at h
    · cases h
    · rename_i r heq
      have h2 := Option.some.inj h
      cases h2
    · rename_i smid heq
      split at h
      · cases h
      · rename_i res hres
        have hout : res.out = Sum.inr st' := Option.some.inj h
        exact (driverIter_ubsearch_mono mode (oracle k) smid res
          (ih smid heq) hres st' hout).2.1

/-- **C3.** Throughout a run in UbSearch mode, `upper_bound` never
increases and `lower_bound` never decreases: between any two points of the
run (state at iteration `n` and at a later iteration `m`) the lower bound
has not dropped and the upper bound has only tightened.  (Per step: every
update of `upper_bound` takes the minimum of the previous value and
`cost − 1`, and every update of `lower_bound` sets it to
`bound_used + 1` with `bound_used ≥` the previous lower bound.) -/
theorem c3_ubsearch_bounds_monotone (mode : SatBoundMode)
    (oracle : Nat → IterInput) (s0 : SatState) (n m : Nat) (hnm : n ≤ m)
    (stn stm : DriverSt)
    (hn : runDriver mode .UbSearch oracle (initDriverSt s0) n = some (.inr stn))
    (hm : runDriver mode .UbSearch oracle (initDriverSt s0) m = some (.inr stm)) :
    stn.lower_bound ≤ stm.lower_bound ∧
    ubTightened stm.upper_bound stn.upper_bound := by
  induction m generalizing stm with
  | zero =>
    have hn0 : n = 0 := Nat.le_zero.mp hnm
    subst hn0
    rw [hn] at hm
    have h2 := Sum.inr.inj (Option.some.inj hm)
    rw [h2]
    exact ⟨le_refl _, ubTightened_refl _⟩
  | succ k ih =>
    rcases Nat.lt_or_ge n (k + 1) with hlt | hge
    · have hnk : n ≤ k := Nat.lt_succ_iff.mp hlt
      have hm' := hm
      simp only [runDriver] at hm'
      split at hm'
      · cases hm'
      · rename_i r heq
        have h2 := Option.some.inj hm'
        cases h2
      · rename_i smid heq
        split at hm'
        · cases hm'
        · rename_i res hres
          have hout : res.out = Sum.inr stm := Option.some.inj hm'
          obtain ⟨hle1, hub1⟩ := ih hnk smid heq
          obtain ⟨hle2, -, hub2⟩ := driverIter_ubsearch_mono mode (oracle k)
            smid res (runDriver_ubsearch_lb_nonneg mode oracle s0 k smid heq)
            hres stm hout
          exact ⟨le_trans hle1 hle2, ubTightened_trans hub2 hub1⟩
    · have hnk : n = k + 1 := le_antisymm hnm hge
      subst hnk
      rw [hn] at hm
      have h2 := Sum.inr.inj (Option.some.inj hm)
      rw [h2]
      exact ⟨le_refl _, ubTightened_refl _⟩

theorem handleUnsat_invalid_ne_cont (best : Option (Int × Sched))
    (bu ub : Option Int) (lb lb' : Int) :
    handleUnsat .Invalid best bu ub lb ≠ .cont lb' := by
  unfold handleUnsat
  cases best <;> simp

/-- The budget/solve phase in Invalid mode: the solve call gets no
assumption, and `lower_bound` and the budget state are untouched. -/
theorem solvePhase_invalid (mode : SatBoundMode) (inp : IterInput)
    (st : DriverSt) (res : StepRes)
    (h : solvePhase mode .Invalid inp st = some res) :
    (∀ a, res.solved = some a → a = none) ∧
    (∀ st', res.out = Sum.inr st' →
      st'.lower_bound = st.lower_bound ∧ st'.bst = st.bst) := by
  unfold solvePhase at h
  rw [budgetStep_invalid] at h
  dsimp only at h
  split at h
  · rw [← Option.some.inj h]
    constructor
    · intro a ha
      exact (Option.some.inj ha).symm
    · intro st' hst'
      simp only at hst'
      rw [← Sum.inr.inj hst']
      exact ⟨rfl, rfl⟩
  · split at h
    · rw [← Option.some.inj h]
      constructor
      · intro a ha
        exact (Option.some.inj ha).symm
      · intro st' hst'
        simp at hst'
    · rw [← Option.some.inj h]
      constructor
      · intro a ha
        exact (Option.some.inj ha).symm
      · intro st' hst'
        simp at hst'
    · rename_i lb' hequ
      exact absurd hequ (handleUnsat_invalid_ne_cont _ _ _ _ _)

/-- One Invalid-mode iteration: empty solve assumptions, `lower_bound` and
budget state untouched. -/
theorem driverIter_invalid (mode : SatBoundMode) (inp : IterInput)
    (st : DriverSt) (res : StepRes)
    (h : driverIter mode .Invalid inp st = some res) :
    (∀ a, res.solved = some a → a = none) ∧
    (∀ st', res.out = Sum.inr st' →
      st'.lower_bound = st.lower_bound ∧ st'.bst = st.bst) := by
  unfold driverIter at h
  split at h
  · cases h
  · rename_i r heq
    obtain ⟨sch, hr⟩ := preSolve_done_inl _ _ _ _ heq
    rw [← Option.some.inj h, hr]
    constructor
    · intro a ha
      cases ha
    · intro st' hst'
      simp at hst'
  · rename_i stg heq
    obtain ⟨hlb, hbst⟩ := preSolve_invalid_go inp st stg heq
    obtain ⟨hs1, hs2⟩ := solvePhase_invalid mode inp stg res h
    refine ⟨hs1, ?_⟩
    intro st' hst'
    obtain ⟨h1, h2⟩ := hs2 st' hst'
    exact ⟨by rw [h1, hlb], by rw [h2, hbst]⟩

/-- **C9.** When `search_mode` is Invalid, the budget-enforcement step is
skipped on every iteration: the budget step changes nothing and reports
neither assumption nor bound (so no totalizer is ever constructed and no
bound unit clause is ever added), every solve call of a run is made with
an empty assumption set, and `lower_bound` remains 0 (with the budget
cache in its initial empty state) at every reachable point of the run. -/
theorem c9_invalid_skips_budget (mode : SatBoundMode)
    (oracle : Nat → IterInput) (s0 : SatState) :
    (∀ (ub : Option Int) (lb : Int) (best : Option (Int × Sched))
        (units : List BoolL) (bst : BudgetSt) (s : SatState),
      budgetStep .Invalid mode ub lb best units bst s =
        some (.proceed none none bst s)) ∧
    (∀ n st', runDriver mode .Invalid oracle (initDriverSt s0) n =
        some (.inr st') →
      st'.lower_bound = 0 ∧ st'.bst.budget_tot = none ∧
      st'.bst = initBudgetSt) ∧
    (∀ n res, stepAt mode .Invalid oracle (initDriverSt s0) n = some res →
      ∀ a, res.solved = some a → a = none) := by
  refine ⟨fun ub lb best units bst s =>
    budgetStep_invalid mode ub lb best units bst s, ?_, ?_⟩
  · intro n
    induction n with
    | zero =>
      intro st' h
      simp only [runDriver] at h
      rw [← Sum.inr.inj (Option.some.inj h)]
      exact ⟨rfl, rfl, rfl⟩
    | succ k ih =>
      intro st' h
      simp only [runDriver] at h
      split at h
      · cases h
      · rename_i r heq
        have h2 := Option.some.inj h
        cases h2
      · rename_i smid heq
        split at h
        · cases h
        · rename_i res hres
          have hout : res.out = Sum.inr st' := Option.some.inj h
          obtain ⟨hlb, hbst⟩ := (driverIter_invalid mode (oracle k) smid res
            hres).2 st' hout
          obtain ⟨ih1, ih2, ih3⟩ := ih smid heq
          refine ⟨by rw [hlb, ih1], ?_, by rw [hbst, ih3]⟩
          rw [hbst, ih3]
          rfl
  · intro n res h
    unfold stepAt at h
    split at h
    · rename_i smid heq
      exact (driverIter_invalid mode (oracle n) smid res h).1
    · cases h

/-- Witness for C3 at a concrete input: a one-iteration UbSearch run (the
refinement pass reports a conflict, the solver answers SAT) keeps the
bounds monotone. -/
theorem c3_witness :
    (0 : Nat) ≤ 1 ∧
    (initDriverSt { nextVar := 0, clauses := [] }).lower_bound ≤
      (initDriverSt { nextVar := 0, clauses := [] }).lower_bound ∧
    ubTightened (initDriverSt { nextVar := 0, clauses := [] }).upper_bound
      (initDriverSt { nextVar := 0, clauses := [] }).upper_bound :=
  ⟨by decide,
    c3_ubsearch_bounds_monotone .AddClauses
      (fun _ => ⟨[], true, 0, [], [], [], 0, [], true⟩)
      { nextVar := 0, clauses := [] } 0 1 (by omega)
      (initDriverSt { nextVar := 0, clauses := [] })
      (initDriverSt { nextVar := 0, clauses := [] })
      (by decide) (by decide)⟩

/-- Witness for C9 at a concrete input: a one-iteration Invalid-mode run
reaches a state with `lower_bound = 0` and no totalizer, and the budget
step at iteration 0 is the identity. -/
theorem c9_witness :
    (initDriverSt { nextVar := 0, clauses := [] }).lower_bound = 0 ∧
    (initDriverSt { nextVar := 0, clauses := [] }).bst.budget_tot = none ∧
    budgetStep .Invalid .Assumptions none 0 none [] initBudgetSt
      { nextVar := 0, clauses := [] } =
      some (.proceed none none initBudgetSt { nextVar := 0, clauses := [] }) :=
  have hc9 := c9_invalid_skips_budget .Assumptions
    (fun _ => ⟨[], true, 0, [], [], [], 0, [], true⟩)
    { nextVar := 0, clauses := [] }
  ⟨(hc9.2.1 1 (initDriverSt { nextVar := 0, clauses := [] }) (by decide)).1,
   (hc9.2.1 1 (initDriverSt { nextVar := 0, clauses := [] }) (by decide)).2.1,
   hc9.1 none 0 none [] initBudgetSt { nextVar := 0, clauses := [] }⟩

theorem addClause_grows (s : SatState) (c : Clause) :
    s.clauses <+: (s.addClause c).clauses := ⟨[c], rfl⟩

theorem addClauses_grows (s : SatState) (cs : List Clause) :
    s.clauses <+: (s.addClauses cs).clauses := ⟨cs, rfl⟩

/-- `time_point` only ever appends to the clause database. -/
theorem time_point_state (o : Occ) (s : SatState) (t : Int) (l : BoolL)
    (b : Bool) (o' : Occ) (s' : SatState)
    (h : o.time_point s t = some (l, b, o', s')) :
    s.clauses <+: s'.clauses := by
  simp only [Occ.time_point, SatState.newVar] at h
  by_cases h0 : o.delays = []
  · rw [if_pos h0] at h
    cases h
  · rw [if_neg h0] at h
    by_cases h1 : 0 < partPoint o.delays t ∨
        t = (o.delays.getD 0 (BoolL.const true, 0)).2
    · rw [if_neg (not_not_intro h1)] at h
      by_cases h2 : partPoint o.delays t < o.delays.length
      · rw [if_neg (not_not_intro h2)] at h
        by_cases h3 : (o.delays.getD (partPoint o.delays t)
              (BoolL.const true, 0)).2 = t ∨
            (0 < partPoint o.delays t ∧
              ((o.delays.get? (partPoint o.delays t - 1)).map Prod.snd) = some t)
        · rw [if_pos h3] at h
          simp only [Option.some.injEq, Prod.mk.injEq] at h
          obtain ⟨-, -, -, hs⟩ := h
          rw [← hs]
        · rw [if_neg h3] at h
          simp only [Option.some.injEq, Prod.mk.injEq] at h
          obtain ⟨-, -, -, hs⟩ := h
          rw [← hs]
          split
          · split
            · exact List.IsPrefix.trans (addClause_grows _ _) (addClause_grows _ _)
            · exact addClause_grows _ _
          · split
            · exact addClause_grows _ _
            · exact List.prefix_refl _
      · rw [if_pos h2] at h
        cases h
    · rw [if_pos h1] at h
      cases h

/-- `occTimePoint` only appends clauses; the dedup set, event log, retained
list, choice-variable cache and SCL rows of the pass state are untouched. -/
theorem occTimePoint_state (st : PassSt) (vid : Nat) (t : Int) (l : BoolL)
    (b : Bool) (st' : PassSt)
    (h : occTimePoint st vid t = some (l, b, st')) :
    st.s.clauses <+: st'.s.clauses ∧ st'.deconf = st.deconf ∧
    st'.events = st.events ∧ st'.retained = st.retained ∧
    st'.cvars = st.cvars := by
  unfold occTimePoint at h
  split at h
  · cases h
  · rename_i o ho
    split at h
    · cases h
    · rename_i l2 b2 o2 s2 htp
      simp only [Option.some.injEq, Prod.mk.injEq] at h
      obtain ⟨-, -, hst⟩ := h
      rw [← hst]
      exact ⟨time_point_state _ _ _ _ _ _ _ htp, rfl, rfl, rfl, rfl⟩

/-- `add_fixed_precedence_scl` only appends clauses and touches only the
occupations, solver, SCL rows and staged time points of the pass state. -/
theorem scl_state (problem : Problem) (visits : List (Nat × Nat))
    (st : PassSt) (vid : Nat) (iv : BoolL) (t : Int) (st' : PassSt)
    (h : add_fixed_precedence_scl problem visits st vid iv t = some st') :
    st.s.clauses <+: st'.s.clauses ∧ st'.deconf = st.deconf ∧
    st'.events = st.events ∧ st'.retained = st.retained ∧
    st'.cvars = st.cvars := by
  unfold add_fixed_precedence_scl at h
  split at h
  · rw [← Option.some.inj h]
    exact ⟨List.prefix_refl _, rfl, rfl, rfl, rfl⟩
  · split at h
    · cases h
    · split at h
      · cases h
      · split at h
        · rw [← Option.some.inj h]
          exact ⟨List.prefix_refl _, rfl, rfl, rfl, rfl⟩
        · split at h
          · cases h
          · dsimp only at h
            split at h
            · cases h
            · rename_i d0 hd0
              split at h
              · rw [← Option.some.inj h]
                exact ⟨List.prefix_refl _, rfl, rfl, rfl, rfl⟩
              · split at h
                · cases h
                · rename_i rv isnew st1 hot
                  obtain ⟨hpre1, hd1, he1, hr1, hc1⟩ :=
                    occTimePoint_state _ _ _ _ _ _ hot
                  split at h
                  · cases h
                  · rename_i nocc1 hn1
                    split at h
                    · cases h
                    · rename_i st2 hst2
                      have hst2fact : st1.s.clauses <+: st2.s.clauses ∧
                          st2.deconf = st1.deconf ∧ st2.events = st1.events ∧
                          st2.retained = st1.retained ∧ st2.cvars = st1.cvars := by
                        split at hst2
                        · cases hpw : pairwiseClauses nocc1.delays iv
                              (partPoint nocc1.delays (t + _)) with
                          | none =>
                            rw [hpw] at hst2
                            cases hst2
                          | some cls =>
                            rw [hpw] at hst2
                            simp only [Option.map_some', Option.some.injEq] at hst2
                            rw [← hst2]
                            exact ⟨addClauses_grows _ _, rfl, rfl, rfl, rfl⟩
                        · rw [← Option.some.inj hst2]
                          exact ⟨addClause_grows _ _, rfl, rfl, rfl, rfl⟩
                      obtain ⟨hpre2, hd2, he2, hr2, hc2⟩ := hst2fact
                      split at h
                      · rw [← Option.some.inj h]
                        refine ⟨List.IsPrefix.trans hpre1 hpre2, ?_, ?_, ?_, ?_⟩
                        · show st2.deconf = st.deconf
                          rw [hd2, hd1]
                        · show st2.events = st.events
                          rw [he2, he1]
                        · show st2.retained = st.retained
                          rw [hr2, hr1]
                        · show st2.cvars = st.cvars
                          rw [hc2, hc1]
                      · rw [← Option.some.inj h]
                        refine ⟨List.IsPrefix.trans hpre1 hpre2, ?_, ?_, ?_, ?_⟩
                        · rw [hd2, hd1]
                        · rw [he2, he1]
                        · rw [hr2, hr1]
                        · rw [hc2, hc1]

theorem samePairB_iff (e2 e : ConfEvent) :
    samePairB e2 e = true ↔ samePairT e2 e.trainA e.trainB := by
  simp [samePairB, samePairT]

theorem passInv_mono (p : Problem) (vs : List (Nat × Nat)) (st st' : PassSt)
    (hinv : passInv p vs st) (hd : st'.deconf = st.deconf)
    (he : st'.events = st.events) (hc : st.s.clauses <+: st'.s.clauses) :
    passInv p vs st' := by
  obtain ⟨h1, h2, h3, h4, h5⟩ := hinv
  refine ⟨?_, ?_, ?_, ?_, ?_⟩
  · rw [hd]
    exact h1
  · rw [hd, he]
    exact h2
  · rw [he]
    exact h3
  · rw [he]
    intro e hme hp l hl
    obtain ⟨ha, hb⟩ := h4 e hme hp l hl
    exact ⟨hc.subset ha, hc.subset hb⟩
  · rw [he]
    exact h5

theorem goodTrace_append (events : List ConfEvent) (e : ConfEvent)
    (hg : goodTrace events)
    (he : e.processed = true ↔ events.any (fun e2 => samePairB e2 e) = false) :
    goodTrace (events ++ [e]) := by
  intro k e' hk
  have hklen : k < events.length + 1 := by
    have h1 := (List.get?_eq_some.mp hk).1
    simpa using h1
  rcases Nat.lt_or_ge k events.length with hlt | hge
  · rw [List.get?_append hlt] at hk
    rw [List.take_append_of_le_length (Nat.le_of_lt hlt)]
    exact hg k e' hk
  · have hkeq : k = events.length := by omega
    subst hkeq
    have h1 : (events ++ [e]).get? events.length = some e := by
      rw [List.get?_append_right (Nat.le_refl _)]
      simp
    have hee : e' = e := Option.some.inj (hk.symm.trans h1)
    subst hee
    rw [List.take_left]
    exact he

theorem stageNtp_facts (c : Bool) (st : PassSt) (en : Nat × BoolL × Int) :
    (stageNtp c st en).deconf = st.deconf ∧
    (stageNtp c st en).events = st.events ∧
    (stageNtp c st en).retained = st.retained ∧
    (stageNtp c st en).s = st.s ∧
    (stageNtp c st en).cvars = st.cvars := by
  unfold stageNtp
  split <;> exact ⟨rfl, rfl, rfl, rfl, rfl⟩

theorem sclStage_state (problem : Problem) (visits : List (Nat × Nat))
    (prec : SatPrecEncoding) (st : PassSt) (visit_id : Nat) (l1 : BoolL)
    (t1 : Int) (other_visit : Nat) (l2 : BoolL) (t2 : Int) (st' : PassSt)
    (h : sclStage problem visits prec st visit_id l1 t1 other_visit l2 t2 =
      some st') :
    st.s.clauses <+: st'.s.clauses ∧ st'.deconf = st.deconf ∧
    st'.events = st.events ∧ st'.retained = st.retained ∧
    st'.cvars = st.cvars := by
  unfold sclStage at h
  split at h
  · cases hx : add_fixed_precedence_scl problem visits st visit_id l1 t1 with
    | none =>
      rw [hx] at h
      cases h
    | some stx =>
      rw [hx, Option.some_bind] at h
      obtain ⟨c1, d1, e1, r1, cv1⟩ := scl_state _ _ _ _ _ _ _ hx
      obtain ⟨c2, d2, e2, r2, cv2⟩ := scl_state _ _ _ _ _ _ _ h
      exact ⟨c1.trans c2, by rw [d2, d1], by rw [e2, e1], by rw [r2, r1],
        by rw [cv2, cv1]⟩
  · rw [← Option.some.inj h]
    exact ⟨List.prefix_refl _, rfl, rfl, rfl, rfl⟩

theorem chooseVar_facts (st : PassSt) (a b : Nat) :
    (chooseVar st a b).2.deconf = st.deconf ∧
    (chooseVar st a b).2.events = st.events ∧
    (chooseVar st a b).2.retained = st.retained ∧
    (chooseVar st a b).2.s.clauses = st.s.clauses := by
  unfold chooseVar
  split <;> exact ⟨rfl, rfl, rfl, rfl⟩

theorem outLit_none (st : PassSt) : outLit st none = some (BoolL.const true) :=
  rfl

/-- What processing a conflict does to the pass state: the retain flag and
the dedup set, retained list are untouched, clauses only grow, and exactly
one processed event is appended, whose two choice clauses are in the
resulting solver and whose `t1` boundary literal is the constant TRUE when
the visit has no successor. -/
theorem processCandidate_spec
    (problem : Problem) (visits : List (Nat × Nat)) (prec : SatPrecEncoding)
    (visit_id train_idx other_train_idx other_visit : Nat)
    (next_visit other_next_visit : Option Nat) (t1_in t1_out t2_in t2_out : Int)
    (st : PassSt) (retain : Bool) (st' : PassSt) (r' : Bool)
    (h : processCandidate problem visits prec visit_id train_idx other_train_idx
      other_visit next_visit other_next_visit t1_in t1_out t2_in t2_out st
      retain = some (st', r')) :
    r' = retain ∧ st'.deconf = st.deconf ∧ st'.retained = st.retained ∧
    st.s.clauses <+: st'.s.clauses ∧
    ∃ ev : ConfEvent, ∃ l : ConfLits,
      st'.events = st.events ++ [ev] ∧
      ev.visit = visit_id ∧ ev.other = other_visit ∧ ev.trainA = train_idx ∧
      ev.trainB = other_train_idx ∧ ev.hasNext = next_visit.isSome ∧
      ev.t1In = t1_in ∧ ev.t1Out = t1_out ∧ ev.t2In = t2_in ∧
      ev.t2Out = t2_out ∧ ev.processed = true ∧ ev.lits = some l ∧
      [l.choose.neg, l.t1OutLit.neg, l.delay2] ∈ st'.s.clauses ∧
      [l.choose, l.t2OutLit.neg, l.delay1] ∈ st'.s.clauses ∧
      (next_visit = none → l.t1OutLit = BoolL.const true) := by
  unfold processCandidate at h
  dsimp only at h
  split at h
  · cases h
  · rename_i delay_t2 t2new st1 heq1
    split at h
    · cases h
    · rename_i delay_t1 t1new st2 heq2
      split at h
      · cases h
      · rename_i st5 heq5
        split at h
        · rename_i t1OutLit t2OutLit heqA heqB
          rw [Option.some.injEq, Prod.mk.injEq] at h
          obtain ⟨hst, hr⟩ := h
          obtain ⟨hp1, hd1, he1, hr1, hcv1⟩ := occTimePoint_state _ _ _ _ _ _ heq1
          obtain ⟨hp2, hd2, he2, hr2, hcv2⟩ := occTimePoint_state _ _ _ _ _ _ heq2
          obtain ⟨hp5, hd5, he5, hr5, hcv5⟩ := sclStage_state _ _ _ _ _ _ _ _ _ _ _ heq5
          obtain ⟨hn3d, hn3e, hn3r, hn3s, hn3c⟩ :=
            stageNtp_facts t1new st2 (visit_id, delay_t1, t2_out)
          obtain ⟨hn4d, hn4e, hn4r, hn4s, hn4c⟩ :=
            stageNtp_facts t2new (stageNtp t1new st2 (visit_id, delay_t1, t2_out))
              (other_visit, delay_t2, t1_out)
          obtain ⟨hcd, hce, hcr, hcs⟩ := chooseVar_facts st5 visit_id other_visit
          refine ⟨hr.symm, ?_, ?_, ?_, ?_⟩
          · rw [← hst]
            show (chooseVar st5 visit_id other_visit).2.deconf = st.deconf
            rw [hcd, hd5, hn4d, hn3d, hd2, hd1]
          · rw [← hst]
            show (chooseVar st5 visit_id other_visit).2.retained = st.retained
            rw [hcr, hr5, hn4r, hn3r, hr2, hr1]
          · rw [← hst]
            show st.s.clauses <+:
              ((((chooseVar st5 visit_id other_visit).2.s.addClause _).addClause
                _).clauses)
            refine List.IsPrefix.trans ?_
              (List.IsPrefix.trans (addClause_grows _ _) (addClause_grows _ _))
            rw [hcs]
            refine List.IsPrefix.trans ?_ hp5
            rw [hn4s, hn3s]
            exact List.IsPrefix.trans hp1 hp2
          · refine ⟨{ visit := visit_id, other := other_visit, trainA := train_idx
                      trainB := other_train_idx, hasNext := next_visit.isSome
                      t1In := t1_in, t1Out := t1_out, t2In := t2_in
                      t2Out := t2_out, processed := true
                      lits := some { choose := (chooseVar st5 visit_id other_visit).1
                                     t1OutLit := t1OutLit, t2OutLit := t2OutLit
                                     delay1 := delay_t1, delay2 := delay_t2 } },
                    { choose := (chooseVar st5 visit_id other_visit).1
                      t1OutLit := t1OutLit, t2OutLit := t2OutLit
                      delay1 := delay_t1, delay2 := delay_t2 }, ?_, rfl, rfl,
                      rfl, rfl, rfl, rfl, rfl, rfl, rfl, rfl, rfl, ?_, ?_, ?_⟩
            · rw [← hst]
              show (chooseVar st5 visit_id other_visit).2.events ++ _ =
                st.events ++ _
              rw [hce, he5, hn4e, hn3e, he2, he1]
            · rw [← hst]
              show _ ∈ ((_ : SatState).addClause _).clauses
              simp [SatState.addClause]
            · rw [← hst]
              show _ ∈ ((_ : SatState).addClause _).clauses
              simp [SatState.addClause]
            · intro hn
              rw [hn] at heqA
              exact Option.some.inj (heqA.symm.trans (outLit_none st5))
        · cases h


/-- One candidate examination preserves the pass invariant, only appends
clauses, leaves the retained list alone, appends only events of the current
visit, forces `retain` whenever it logs a skipped event, and never clears
an already-set retain flag. -/
theorem candidateStep_spec
    (problem : Problem) (visits : List (Nat × Nat)) (prec : SatPrecEncoding)
    (visit_id train_idx : Nat) (next_visit : Option Nat) (t1_in t1_out : Int)
    (other_visit : Nat) (st : PassSt) (retain : Bool) (st' : PassSt) (r' : Bool)
    (tv : Nat × Nat) (train : Train) (visit : Visit)
    (h : candidateStep problem visits prec visit_id train_idx next_visit
      t1_in t1_out other_visit st retain = some (st', r'))
    (hinv : passInv problem visits st)
    (hvis : visits.get? visit_id = some tv)
    (htr : problem.trains.get? tv.1 = some train)
    (hvv : train.visits.get? tv.2 = some visit)
    (hnext : next_visit.isSome = decide (tv.2 + 1 < train.visits.length))
    (ht1o : next_visit = none → t1_out = t1_in + visit.travel_time) :
    passInv problem visits st' ∧ st.s.clauses <+: st'.s.clauses ∧
    st'.retained = st.retained ∧
    (∃ ev, st'.events = st.events ++ ev ∧
      (∀ e ∈ ev, e.visit = visit_id) ∧
      ((∃ e ∈ ev, e.processed = false) → r' = true)) ∧
    (retain = true → r' = true) := by
  obtain ⟨h1, h2, h3, h4, h5⟩ := hinv
  unfold candidateStep at h
  split at h
  · rw [Option.some.injEq, Prod.mk.injEq] at h
    obtain ⟨hst, hr⟩ := h
    refine ⟨hst ▸ ⟨h1, h2, h3, h4, h5⟩, hst ▸ List.prefix_refl _,
      by rw [← hst], ⟨[], by rw [← hst, List.append_nil], ?_, ?_⟩, ?_⟩
    · intro e he
      cases he
    · intro hex
      obtain ⟨e, he, -⟩ := hex
      cases he
    · intro hret
      rw [← hr]
      exact hret
  · split at h
    · cases h
    · rename_i t2_in heqt2
      split at h
      · cases h
      · rename_i otv heqotv
        split at h
        · rw [Option.some.injEq, Prod.mk.injEq] at h
          obtain ⟨hst, hr⟩ := h
          refine ⟨hst ▸ ⟨h1, h2, h3, h4, h5⟩, hst ▸ List.prefix_refl _,
            by rw [← hst], ⟨[], by rw [← hst, List.append_nil], ?_, ?_⟩, ?_⟩
          · intro e he
            cases he
          · intro hex
            obtain ⟨e, he, -⟩ := hex
            cases he
          · intro hret
            rw [← hr]
            exact hret
        · rename_i hne
          split at h
          · cases h
          · rename_i otherTrain heqot
            dsimp only at h
            split at h
            · cases h
            · rename_i t2_out heqt2o
              split at h
              · rw [Option.some.injEq, Prod.mk.injEq] at h
                obtain ⟨hst, hr⟩ := h
                refine ⟨hst ▸ ⟨h1, h2, h3, h4, h5⟩, hst ▸ List.prefix_refl _,
                  by rw [← hst], ⟨[], by rw [← hst, List.append_nil], ?_, ?_⟩, ?_⟩
                · intro e he
                  cases he
                · intro hex
                  obtain ⟨e, he, -⟩ := hex
                  cases he
                · intro hret
                  rw [← hr]
                  exact hret
              · rename_i hconf
                split at h
                · -- branch A: train pair already recorded; skip, retain
                  rename_i hA
                  have hmemA : (train_idx, otv.1) ∈ st.deconf := by
                    by_cases hm : (train_idx, otv.1) ∈ st.deconf
                    · exact hm
                    · exfalso
                      unfold hsInsert at hA
                      rw [if_neg hm] at hA
                      exact Bool.noConfusion hA
                  have hA2 : (hsInsert st.deconf (train_idx, otv.1)).2 =
                      st.deconf := by
                    unfold hsInsert
                    rw [if_pos hmemA]
                  rw [hA2] at h
                  rw [Option.some.injEq, Prod.mk.injEq] at h
                  obtain ⟨hst, hr⟩ := h
                  have hdeq : st'.deconf = st.deconf := by rw [← hst]
                  have heveq : st'.events = st.events ++
                      [skipEvent visit_id other_visit train_idx otv.1
                        next_visit.isSome t1_in t1_out t2_in t2_out] := by
                    rw [← hst]
                  have hseq : st'.s = st.s := by rw [← hst]
                  refine ⟨⟨?_, ?_, ?_, ?_, ?_⟩, ?_, by rw [← hst], ?_, ?_⟩
                  · rw [hdeq]
                    exact h1
                  · rw [hdeq, heveq]
                    intro a b
                    constructor
                    · intro hm
                      obtain ⟨e, hme, hsp⟩ := (h2 a b).mp hm
                      exact ⟨e, List.mem_append_left _ hme, hsp⟩
                    · intro hex
                      obtain ⟨e, hme, hsp⟩ := hex
                      rcases List.mem_append.mp hme with hme | hme
                      · exact (h2 a b).mpr ⟨e, hme, hsp⟩
                      · have hee : e = skipEvent visit_id other_visit train_idx
                            otv.1 next_visit.isSome t1_in t1_out t2_in t2_out := by
                          cases hme with
                          | head => rfl
                          | tail _ hx => cases hx
                        subst hee
                        rcases hsp with ⟨ha, hb⟩ | ⟨ha, hb⟩
                        · rw [← ha, ← hb]
                          exact hmemA
                        · rw [← ha, ← hb]
                          exact h1 _ _ hmemA
                  · rw [heveq]
                    refine goodTrace_append _ _ h3 ?_
                    obtain ⟨e, hme, hsp⟩ := (h2 train_idx otv.1).mp hmemA
                    have hany : st.events.any (fun e2 => samePairB e2
                        (skipEvent visit_id other_visit train_idx otv.1
                          next_visit.isSome t1_in t1_out t2_in t2_out)) = true :=
                      List.any_eq_true.mpr ⟨e, hme, (samePairB_iff _ _).mpr hsp⟩
                    refine iff_of_false (by simp [skipEvent]) ?_
                    rw [hany]
                    simp
                  · rw [heveq, hseq]
                    intro e hme hp l' hl'
                    rcases List.mem_append.mp hme with hme | hme
                    · exact h4 e hme hp l' hl'
                    · have hee : e = skipEvent visit_id other_visit train_idx
                          otv.1 next_visit.isSome t1_in t1_out t2_in t2_out := by
                        cases hme with
                        | head => rfl
                        | tail _ hx => cases hx
                      subst hee
                      exact absurd hp (by simp [skipEvent])
                  · rw [heveq]
                    intro e hme
                    rcases List.mem_append.mp hme with hme | hme
                    · exact h5 e hme
                    · have hee : e = skipEvent visit_id other_visit train_idx
                          otv.1 next_visit.isSome t1_in t1_out t2_in t2_out := by
                        cases hme with
                        | head => rfl
                        | tail _ hx => cases hx
                      subst hee
                      intro tv' train' visit' hv' ht' hh'
                      have htv : tv' = tv := Option.some.inj (hv'.symm.trans hvis)
                      subst htv
                      have htt : train' = train :=
                        Option.some.inj (ht'.symm.trans htr)
                      subst htt
                      have hvt : visit' = visit :=
                        Option.some.inj (hh'.symm.trans hvv)
                      subst hvt
                      refine ⟨hnext, ?_⟩
                      intro hhn
                      have hnone : next_visit = none := by
                        cases next_visit with
                        | none => rfl
                        | some v => exact absurd hhn (by simp [skipEvent])
                      refine ⟨ht1o hnone, ?_⟩
                      intro l'' hl''
                      cases hl''
                  · rw [hseq]
                  · refine ⟨[skipEvent visit_id other_visit train_idx otv.1
                      next_visit.isSome t1_in t1_out t2_in t2_out], heveq, ?_, ?_⟩
                    · intro e hme
                      have hee : e = skipEvent visit_id other_visit train_idx
                          otv.1 next_visit.isSome t1_in t1_out t2_in t2_out := by
                        cases hme with
                        | head => rfl
                        | tail _ hx => cases hx
                      subst hee
                      rfl
                    · intro _
                      exact hr.symm
                  · intro _
                    exact hr.symm
                · -- branch B / C: the first ordering is fresh
                  rename_i hA'
                  have hfreshA : (train_idx, otv.1) ∉ st.deconf := by
                    intro hm
                    apply hA'
                    show (hsInsert st.deconf (train_idx, otv.1)).1 = false
                    unfold hsInsert
                    rw [if_pos hm]
                  have hA2 : (hsInsert st.deconf (train_idx, otv.1)).2 =
                      (train_idx, otv.1) :: st.deconf := by
                    unfold hsInsert
                    rw [if_neg hfreshA]
                  rw [hA2] at h
                  split at h
                  · -- branch B: reverse ordering stale: unreachable by symmetry
                    rename_i hB
                    exfalso
                    have hmemB : (otv.1, train_idx) ∈
                        (train_idx, otv.1) :: st.deconf := by
                      by_cases hm : (otv.1, train_idx) ∈
                          (train_idx, otv.1) :: st.deconf
                      · exact hm
                      · exfalso
                        unfold hsInsert at hB
                        rw [if_neg hm] at hB
                        exact Bool.noConfusion hB
                    cases hmemB with
                    | head =>
                      exact hne rfl
                    | tail _ hx =>
                      exact hfreshA (h1 _ _ hx)
                  · -- branch C: fresh pair, process the conflict
                    rename_i hB'
                    have hfreshB : (otv.1, train_idx) ∉
                        (train_idx, otv.1) :: st.deconf := by
                      intro hm
                      apply hB'
                      show (hsInsert ((train_idx, otv.1) :: st.deconf)
                        (otv.1, train_idx)).1 = false
                      unfold hsInsert
                      rw [if_pos hm]
                    have hB2 : (hsInsert ((train_idx, otv.1) :: st.deconf)
                        (otv.1, train_idx)).2 =
                        (otv.1, train_idx) :: (train_idx, otv.1) :: st.deconf := by
                      unfold hsInsert
                      rw [if_neg hfreshB]
                    rw [hB2] at h
                    obtain ⟨hrr, hdd, hretained, hpref, ev, l, hev, hv_e, ho_e,
                      hta, htb, hhn_e, ht1i, ht1oe, ht2i, ht2oe, hproc, hlits,
                      hc1m, hc2m, hlit⟩ :=
                      processCandidate_spec _ _ _ _ _ _ _ _ _ _ _ _ _ _ _ _ _ h
                    have hdeq : st'.deconf =
                        (otv.1, train_idx) :: (train_idx, otv.1) :: st.deconf := hdd
                    have heveq : st'.events = st.events ++ [ev] := hev
                    have hpref' : st.s.clauses <+: st'.s.clauses := hpref
                    refine ⟨⟨?_, ?_, ?_, ?_, ?_⟩, hpref', hretained, ?_, ?_⟩
                    · intro a b hm
                      rw [hdeq] at hm ⊢
                      simp only [List.mem_cons] at hm
                      rcases hm with hm | hm | hm
                      · rw [Prod.mk.injEq] at hm
                        obtain ⟨ha, hb⟩ := hm
                        subst ha
                        subst hb
                        exact List.mem_cons_of_mem _ (List.mem_cons_self _ _)
                      · rw [Prod.mk.injEq] at hm
                        obtain ⟨ha, hb⟩ := hm
                        subst ha
                        subst hb
                        exact List.mem_cons_self _ _
                      · exact List.mem_cons_of_mem _
                          (List.mem_cons_of_mem _ (h1 a b hm))
                    · intro a b
                      rw [hdeq, heveq]
                      constructor
                      · intro hm
                        simp only [List.mem_cons] at hm
                        rcases hm with hm | hm | hm
                        · rw [Prod.mk.injEq] at hm
                          obtain ⟨ha, hb⟩ := hm
                          subst ha
                          subst hb
                          exact ⟨ev, List.mem_append_right _ (List.mem_cons_self _ _),
                            Or.inr ⟨hta, htb⟩⟩
                        · rw [Prod.mk.injEq] at hm
                          obtain ⟨ha, hb⟩ := hm
                          subst ha
                          subst hb
                          exact ⟨ev, List.mem_append_right _ (List.mem_cons_self _ _),
                            Or.inl ⟨hta, htb⟩⟩
                        · obtain ⟨e, hme, hsp⟩ := (h2 a b).mp hm
                          exact ⟨e, List.mem_append_left _ hme, hsp⟩
                      · intro hex
                        obtain ⟨e, hme, hsp⟩ := hex
                        rcases List.mem_append.mp hme with hme | hme
                        · exact List.mem_cons_of_mem _ (List.mem_cons_of_mem _
                            ((h2 a b).mpr ⟨e, hme, hsp⟩))
                        · have hee : e = ev := by
                            cases hme with
                            | head => rfl
                            | tail _ hx => cases hx
                          subst hee
                          rcases hsp with ⟨ha, hb⟩ | ⟨ha, hb⟩
                          · rw [← ha, ← hb, hta, htb]
                            exact List.mem_cons_of_mem _ (List.mem_cons_self _ _)
                          · rw [← ha, ← hb, hta, htb]
                            exact List.mem_cons_self _ _
                    · rw [heveq]
                      refine goodTrace_append _ _ h3 ?_
                      refine iff_of_true hproc ?_
                      cases hany : st.events.any (fun e2 => samePairB e2 ev) with
                      | false => rfl
                      | true =>
                        exfalso
                        obtain ⟨e, hme, hsp⟩ := List.any_eq_true.mp hany
                        have hsp' := (samePairB_iff e ev).mp hsp
                        rw [hta, htb] at hsp'
                        exact hfreshA ((h2 train_idx otv.1).mpr ⟨e, hme, hsp'⟩)
                    · rw [heveq]
                      intro e hme hp l' hl'
                      rcases List.mem_append.mp hme with hme | hme
                      · obtain ⟨ha, hb⟩ := h4 e hme hp l' hl'
                        exact ⟨hpref'.subset ha, hpref'.subset hb⟩
                      · have hee : e = ev := by
                          cases hme with
                          | head => rfl
                          | tail _ hx => cases hx
                        subst hee
                        have hll : l' = l := Option.some.inj (hl'.symm.trans hlits)
                        subst hll
                        exact ⟨hc1m, hc2m⟩
                    · rw [heveq]
                      intro e hme
                      rcases List.mem_append.mp hme with hme | hme
                      · exact h5 e hme
                      · have hee : e = ev := by
                          cases hme with
                          | head => rfl
                          | tail _ hx => cases hx
                        subst hee
                        intro tv' train' visit' hv' ht' hh'
                        rw [hv_e] at hv'
                        have htv : tv' = tv := Option.some.inj (hv'.symm.trans hvis)
                        subst htv
                        have htt : train' = train :=
                          Option.some.inj (ht'.symm.trans htr)
                        subst htt
                        have hvt : visit' = visit :=
                          Option.some.inj (hh'.symm.trans hvv)
                        subst hvt
                        refine ⟨hhn_e.trans hnext, ?_⟩
                        intro hhn
                        rw [hhn_e] at hhn
                        have hnone : next_visit = none := by
                          cases next_visit with
                          | none => rfl
                          | some v => exact absurd hhn (by simp)
                        constructor
                        · rw [ht1oe, ht1i]
                          exact ht1o hnone
                        · intro l'' hl''
                          have hll : l'' = l :=
                            Option.some.inj (hl''.symm.trans hlits)
                          subst hll
                          exact hlit hnone
                    · refine ⟨[ev], heveq, ?_, ?_⟩
                      · intro e hme
                        have hee : e = ev := by
                          cases hme with
                          | head => rfl
                          | tail _ hx => cases hx
                        subst hee
                        exact hv_e
                      · intro hex
                        obtain ⟨e, hme, hp⟩ := hex
                        have hee : e = ev := by
                          cases hme with
                          | head => rfl
                          | tail _ hx => cases hx
                        subst hee
                        exact Bool.noConfusion (hproc.symm.trans hp)
                    · intro hret
                      rw [hrr]
                      exact hret

/-- The candidate fold over one resource's visits: same guarantees as a
single candidate step, accumulated. -/
theorem candFold_spec
    (problem : Problem) (visits : List (Nat × Nat)) (prec : SatPrecEncoding)
    (visit_id train_idx : Nat) (next_visit : Option Nat) (t1_in t1_out : Int)
    (others : List Nat) (st : PassSt) (retain : Bool) (st' : PassSt) (r' : Bool)
    (tv : Nat × Nat) (train : Train) (visit : Visit)
    (h : candFold problem visits prec visit_id train_idx next_visit
      t1_in t1_out others st retain = some (st', r'))
    (hinv : passInv problem visits st)
    (hvis : visits.get? visit_id = some tv)
    (htr : problem.trains.get? tv.1 = some train)
    (hvv : train.visits.get? tv.2 = some visit)
    (hnext : next_visit.isSome = decide (tv.2 + 1 < train.visits.length))
    (ht1o : next_visit = none → t1_out = t1_in + visit.travel_time) :
    passInv problem visits st' ∧ st.s.clauses <+: st'.s.clauses ∧
    st'.retained = st.retained ∧
    (∃ ev, st'.events = st.events ++ ev ∧
      (∀ e ∈ ev, e.visit = visit_id) ∧
      ((∃ e ∈ ev, e.processed = false) → r' = true)) ∧
    (retain = true → r' = true) := by
  induction others generalizing st retain with
  | nil =>
    unfold candFold at h
    rw [Option.some.injEq, Prod.mk.injEq] at h
    obtain ⟨hst, hr⟩ := h
    refine ⟨hst ▸ hinv, hst ▸ List.prefix_refl _,
      by rw [← hst], ⟨[], by rw [← hst, List.append_nil], ?_, ?_⟩, ?_⟩
    · intro e he
      cases he
    · intro hex
      obtain ⟨e, he, -⟩ := hex
      cases he
    · intro hret
      rw [← hr]
      exact hret
  | cons o rest ih =>
    unfold candFold at h
    split at h
    · cases h
    · rename_i stm rm heqc
      obtain ⟨hinv1, hpre1, hret1, ⟨ev1, hev1, hvise1, hskip1⟩, hmono1⟩ :=
        candidateStep_spec _ _ _ _ _ _ _ _ _ _ _ _ _ _ _ _
          heqc hinv hvis htr hvv hnext ht1o
      obtain ⟨hinv2, hpre2, hret2, ⟨ev2, hev2, hvise2, hskip2⟩, hmono2⟩ :=
        ih stm rm h hinv1
      refine ⟨hinv2, hpre1.trans hpre2, hret2.trans hret1,
        ⟨ev1 ++ ev2, ?_, ?_, ?_⟩, ?_⟩
      · rw [hev2, hev1, List.append_assoc]
      · intro e hme
        rcases List.mem_append.mp hme with hme | hme
        · exact hvise1 e hme
        · exact hvise2 e hme
      · intro hex
        obtain ⟨e, hme, hp⟩ := hex
        rcases List.mem_append.mp hme with hme | hme
        · exact hmono2 (hskip1 ⟨e, hme, hp⟩)
        · exact hskip2 ⟨e, hme, hp⟩
      · intro hret
        exact hmono2 (hmono1 hret)

/-- The fold over conflicting resources, with `t1_out` recomputed per
resource iteration from the current occupations. -/
theorem resFold_spec
    (problem : Problem) (visits : List (Nat × Nat))
    (resource_visits : List (List Nat)) (prec : SatPrecEncoding)
    (visit_id train_idx : Nat) (next_visit : Option Nat) (t1_in : Int)
    (visit : Visit) (resources : List Nat) (st : PassSt) (retain : Bool)
    (st' : PassSt) (r' : Bool) (tv : Nat × Nat) (train : Train)
    (h : resFold problem visits resource_visits prec visit_id train_idx
      next_visit t1_in visit resources st retain = some (st', r'))
    (hinv : passInv problem visits st)
    (hvis : visits.get? visit_id = some tv)
    (htr : problem.trains.get? tv.1 = some train)
    (hvv : train.visits.get? tv.2 = some visit)
    (hnext : next_visit.isSome = decide (tv.2 + 1 < train.visits.length)) :
    passInv problem visits st' ∧ st.s.clauses <+: st'.s.clauses ∧
    st'.retained = st.retained ∧
    (∃ ev, st'.events = st.events ++ ev ∧
      (∀ e ∈ ev, e.visit = visit_id) ∧
      ((∃ e ∈ ev, e.processed = false) → r' = true)) ∧
    (retain = true → r' = true) := by
  induction resources generalizing st retain with
  | nil =>
    unfold resFold at h
    rw [Option.some.injEq, Prod.mk.injEq] at h
    obtain ⟨hst, hr⟩ := h
    refine ⟨hst ▸ hinv, hst ▸ List.prefix_refl _,
      by rw [← hst], ⟨[], by rw [← hst, List.append_nil], ?_, ?_⟩, ?_⟩
    · intro e he
      cases he
    · intro hex
      obtain ⟨e, he, -⟩ := hex
      cases he
    · intro hret
      rw [← hr]
      exact hret
  | cons r rest ih =>
    unfold resFold at h
    dsimp only at h
    split at h
    · cases h
    · rename_i t1_out heqt1o
      split at h
      · cases h
      · rename_i others heqrv
        split at h
        · cases h
        · rename_i stm rm heqcf
          have ht1o : next_visit = none →
              t1_out = t1_in + visit.travel_time := by
            intro hn
            rw [hn] at heqt1o
            have h2 : some (t1_in + visit.travel_time) = some t1_out := heqt1o
            exact (Option.some.inj h2).symm
          obtain ⟨hinv1, hpre1, hret1, ⟨ev1, hev1, hvise1, hskip1⟩, hmono1⟩ :=
            candFold_spec _ _ _ _ _ _ _ _ _ _ _ _ _ _ _ _
              heqcf hinv hvis htr hvv hnext ht1o
          obtain ⟨hinv2, hpre2, hret2, ⟨ev2, hev2, hvise2, hskip2⟩, hmono2⟩ :=
            ih stm rm h hinv1
          refine ⟨hinv2, hpre1.trans hpre2, hret2.trans hret1,
            ⟨ev1 ++ ev2, ?_, ?_, ?_⟩, ?_⟩
          · rw [hev2, hev1, List.append_assoc]
          · intro e hme
            rcases List.mem_append.mp hme with hme | hme
            · exact hvise1 e hme
            · exact hvise2 e hme
          · intro hex
            obtain ⟨e, hme, hp⟩ := hex
            rcases List.mem_append.mp hme with hme | hme
            · exact hmono2 (hskip1 ⟨e, hme, hp⟩)
            · exact hskip2 ⟨e, hme, hp⟩
          · intro hret
            exact hmono2 (hmono1 hret)

/-- One `retain`-closure body call preserves the pass invariant and the
skipped-events-are-retained property, only appends clauses, and only
appends to the retained list. -/
theorem visitStep_spec
    (problem : Problem) (visits : List (Nat × Nat))
    (resource_visits : List (List Nat)) (conflicts : List (Nat × List Nat))
    (prec : SatPrecEncoding) (st : PassSt) (visit_id : Nat) (st' : PassSt)
    (h : visitStep problem visits resource_visits conflicts prec st visit_id =
      some st')
    (hinv : passInv problem visits st) (hsr : skippedRetained st) :
    passInv problem visits st' ∧ skippedRetained st' ∧
    st.s.clauses <+: st'.s.clauses ∧ st.retained <+: st'.retained := by
  unfold visitStep at h
  split at h
  · cases h
  · rename_i tv heqtv
    split at h
    · cases h
    · rename_i train heqtr
      dsimp only at h
      split at h
      · cases h
      · rename_i t1_in heqt1
        split at h
        · cases h
        · rename_i visit heqvv
          have hnext : (if tv.2 + 1 < train.visits.length
              then some (visit_id + 1) else none : Option Nat).isSome =
              decide (tv.2 + 1 < train.visits.length) := by
            by_cases hc : tv.2 + 1 < train.visits.length
            · rw [if_pos hc]
              simp [hc]
            · rw [if_neg hc]
              simp [hc]
          split at h
          · cases h
          · rename_i stR retain heqRun
            have hrun : passInv problem visits stR ∧
                st.s.clauses <+: stR.s.clauses ∧
                stR.retained = st.retained ∧
                (∃ ev, stR.events = st.events ++ ev ∧
                  (∀ e ∈ ev, e.visit = visit_id) ∧
                  ((∃ e ∈ ev, e.processed = false) → retain = true)) := by
              split at heqRun
              · rw [Option.some.injEq, Prod.mk.injEq] at heqRun
                obtain ⟨hst, hr⟩ := heqRun
                refine ⟨hst ▸ hinv, hst ▸ List.prefix_refl _, by rw [← hst],
                  ⟨[], by rw [← hst, List.append_nil], ?_, ?_⟩⟩
                · intro e he
                  cases he
                · intro hex
                  obtain ⟨e, he, -⟩ := hex
                  cases he
              · rename_i rs heqlk
                obtain ⟨hinv1, hpre1, hret1, hev1, -⟩ :=
                  resFold_spec _ _ _ _ _ _ _ _ _ _ _ _ _ _ _ _
                    heqRun hinv heqtv heqtr heqvv hnext
                exact ⟨hinv1, hpre1, hret1, hev1⟩
            obtain ⟨hinvR, hpreR, hretR, ev, hevR, hviseR, hskipR⟩ := hrun
            split at h
            · -- retain = true: keep the visit on the worklist
              rename_i hret
              rw [Option.some.injEq] at h
              refine ⟨passInv_mono _ _ stR st' hinvR (by rw [← h])
                  (by rw [← h]) (by rw [← h]), ?_, ?_, ?_⟩
              · intro e hme hp
                have hmev : e ∈ st.events ++ ev := by
                  have he2 : st'.events = st.events ++ ev := by
                    rw [← h]
                    exact hevR
                  rw [← he2]
                  exact hme
                have hretq : st'.retained = st.retained ++ [visit_id] := by
                  rw [← h]
                  show stR.retained ++ [visit_id] = st.retained ++ [visit_id]
                  rw [hretR]
                rcases List.mem_append.mp hmev with hme2 | hme2
                · rw [hretq]
                  exact List.mem_append_left _ (hsr e hme2 hp)
                · rw [hretq, hviseR e hme2]
                  exact List.mem_append_right _ (List.mem_cons_self _ _)
              · have hs2 : st'.s = stR.s := by rw [← h]
                rw [hs2]
                exact hpreR
              · have hretq : st'.retained = st.retained ++ [visit_id] := by
                  rw [← h]
                  show stR.retained ++ [visit_id] = st.retained ++ [visit_id]
                  rw [hretR]
                rw [hretq]
                exact List.prefix_append _ _
            · -- retain = false: no skipped event was appended
              rename_i hret
              rw [Option.some.injEq] at h
              have hretF : retain = false := by
                cases hrb : retain with
                | false => rfl
                | true => exact absurd hrb hret
              refine ⟨h ▸ hinvR, ?_, ?_, ?_⟩
              · intro e hme hp
                have hmev : e ∈ st.events ++ ev := by
                  have he2 : st'.events = st.events ++ ev := by
                    rw [← h]
                    exact hevR
                  rw [← he2]
                  exact hme
                have hretq : st'.retained = st.retained := by
                  rw [← h]
                  exact hretR
                rcases List.mem_append.mp hmev with hme2 | hme2
                · rw [hretq]
                  exact hsr e hme2 hp
                · exfalso
                  have : retain = true := hskipR ⟨e, hme2, hp⟩
                  rw [hretF] at this
                  exact Bool.noConfusion this
              · have hs2 : st'.s = stR.s := by rw [← h]
                rw [hs2]
                exact hpreR
              · have hretq : st'.retained = st.retained := by
                  rw [← h]
                  exact hretR
                rw [hretq]

/-- The whole resource pass preserves the invariant and the
skipped-events-are-retained property. -/
theorem resourcePass_spec
    (problem : Problem) (visits : List (Nat × Nat))
    (resource_visits : List (List Nat)) (conflicts : List (Nat × List Nat))
    (prec : SatPrecEncoding) (touched : List Nat) (st st' : PassSt)
    (h : resourcePass problem visits resource_visits conflicts prec touched
      st = some st')
    (hinv : passInv problem visits st) (hsr : skippedRetained st) :
    passInv problem visits st' ∧ skippedRetained st' := by
  induction touched generalizing st with
  | nil =>
    unfold resourcePass at h
    have hst : st = st' := Option.some.inj h
    exact ⟨hst ▸ hinv, hst ▸ hsr⟩
  | cons v rest ih =>
    unfold resourcePass at h
    split at h
    · cases h
    · rename_i stm heqv
      obtain ⟨hinv1, hsr1, -, -⟩ :=
        visitStep_spec _ _ _ _ _ _ _ _ heqv hinv hsr
      exact ih stm h hinv1 hsr1

/-- A fresh pass state (empty dedup set and event log) satisfies the pass
invariant, and trivially the skipped-retained property. -/
theorem passInv_init (problem : Problem) (visits : List (Nat × Nat))
    (st0 : PassSt) (hd : st0.deconf = []) (he : st0.events = []) :
    passInv problem visits st0 ∧ skippedRetained st0 := by
  constructor
  · refine ⟨?_, ?_, ?_, ?_, ?_⟩
    · rw [hd]
      intro a b hm
      cases hm
    · rw [hd, he]
      intro a b
      constructor
      · intro hm
        cases hm
      · intro hex
        obtain ⟨e, hme, -⟩ := hex
        cases hme
    · rw [he]
      intro k e hk
      simp at hk
    · rw [he]
      intro e hme
      cases hme
    · rw [he]
      intro e hme
      cases hme
  · intro e hme
    rw [he] at hme
    cases hme

/-- **C5.** Within a single resource-conflict pass (fresh
`deconflicted_train_pairs` set and event log), a conflicting visit pair is
processed exactly when no earlier conflicting pair of the pass concerned
the same unordered train pair; every processed pair has both orderings of
its train pair recorded in `deconflicted_train_pairs` and its two conflict
clauses in the solver; and every skipped (deduplicated) pair leaves its
visit on the `touched_intervals` worklist. -/
theorem c5_pass_dedup
    (problem : Problem) (visits : List (Nat × Nat))
    (resource_visits : List (List Nat)) (conflicts : List (Nat × List Nat))
    (prec : SatPrecEncoding) (touched : List Nat) (st0 stOut : PassSt)
    (h : resourcePass problem visits resource_visits conflicts prec touched
      st0 = some stOut)
    (hd : st0.deconf = []) (he : st0.events = []) :
    (∀ k e, stOut.events.get? k = some e →
      (e.processed = true ↔
        (stOut.events.take k).any (fun e2 => samePairB e2 e) = false)) ∧
    (∀ e ∈ stOut.events, e.processed = true →
      (e.trainA, e.trainB) ∈ stOut.deconf ∧
      (e.trainB, e.trainA) ∈ stOut.deconf ∧
      ∀ l, e.lits = some l →
        [l.choose.neg, l.t1OutLit.neg, l.delay2] ∈ stOut.s.clauses ∧
        [l.choose, l.t2OutLit.neg, l.delay1] ∈ stOut.s.clauses) ∧
    (∀ e ∈ stOut.events, e.processed = false → e.visit ∈ stOut.retained) := by
  obtain ⟨hinv0, hsr0⟩ := passInv_init problem visits st0 hd he
  obtain ⟨⟨h1, h2, h3, h4, h5⟩, hsr⟩ :=
    resourcePass_spec _ _ _ _ _ _ _ _ h hinv0 hsr0
  refine ⟨h3, ?_, hsr⟩
  intro e hme hp
  exact ⟨(h2 e.trainA e.trainB).mpr ⟨e, hme, Or.inl ⟨rfl, rfl⟩⟩,
    (h2 e.trainB e.trainA).mpr ⟨e, hme, Or.inr ⟨rfl, rfl⟩⟩,
    fun l hl => h4 e hme hp l hl⟩

/-- Witness for C5 on the concrete two-train instance: the pass processes
the first resource-1 conflict and dedup-skips the second, keeping its visit
on the worklist. -/
theorem c5_witness :
    passSt0.deconf = [] ∧ passSt0.events = [] ∧
    ((∀ k e, passStOut.events.get? k = some e →
      (e.processed = true ↔
        (passStOut.events.take k).any (fun e2 => samePairB e2 e) = false)) ∧
    (∀ e ∈ passStOut.events, e.processed = true →
      (e.trainA, e.trainB) ∈ passStOut.deconf ∧
      (e.trainB, e.trainA) ∈ passStOut.deconf ∧
      ∀ l, e.lits = some l →
        [l.choose.neg, l.t1OutLit.neg, l.delay2] ∈ passStOut.s.clauses ∧
        [l.choose, l.t2OutLit.neg, l.delay1] ∈ passStOut.s.clauses) ∧
    (∀ e ∈ passStOut.events, e.processed = false →
      e.visit ∈ passStOut.retained)) :=
  ⟨rfl, rfl, c5_pass_dedup passProblem passVisits passResourceVisits
    passConflicts SatPrecEncoding.Plain [0, 1, 2, 3] passSt0 passStOut
    rfl rfl rfl⟩

/-- **C10.** Every conflict event of the resource pass whose visit is the
last of its train records `hasNext = false`, used
`t_out = incumbent + travel_time` as the occupied-interval end in the
disjointness test, and any emitted conflict-clause literals use the
constant TRUE as the outgoing boundary literal, whose negation is the
constant FALSE. -/
theorem c10_last_visit_t_out
    (problem : Problem) (visits : List (Nat × Nat))
    (resource_visits : List (List Nat)) (conflicts : List (Nat × List Nat))
    (prec : SatPrecEncoding) (touched : List Nat) (st0 stOut : PassSt)
    (e : ConfEvent) (tv : Nat × Nat) (train : Train) (visit : Visit)
    (h : resourcePass problem visits resource_visits conflicts prec touched
      st0 = some stOut)
    (hd : st0.deconf = []) (he : st0.events = [])
    (hm : e ∈ stOut.events)
    (hvis : visits.get? e.visit = some tv)
    (htr : problem.trains.get? tv.1 = some train)
    (hvv : train.visits.get? tv.2 = some visit)
    (hlast : ¬(tv.2 + 1 < train.visits.length)) :
    e.hasNext = false ∧ e.t1Out = e.t1In + visit.travel_time ∧
    (∀ l, e.lits = some l → l.t1OutLit = BoolL.const true ∧
      l.t1OutLit.neg = BoolL.const false) := by
  obtain ⟨hinv0, hsr0⟩ := passInv_init problem visits st0 hd he
  obtain ⟨⟨h1, h2, h3, h4, h5⟩, -⟩ :=
    resourcePass_spec _ _ _ _ _ _ _ _ h hinv0 hsr0
  obtain ⟨hhn, hrest⟩ := h5 e hm tv train visit hvis htr hvv
  have hhnf : e.hasNext = false := by
    rw [hhn]
    exact decide_eq_false hlast
  obtain ⟨ht1, hlits⟩ := hrest hhnf
  refine ⟨hhnf, ht1, ?_⟩
  intro l hl
  have hT := hlits l hl
  refine ⟨hT, ?_⟩
  simp [hT, BoolL.neg]

/-- Witness for C10 on the concrete two-train instance: the processed
conflict event concerns visit 1 (train 0's last visit); it records
`hasNext = false`, `t_out = 5 + 5`, and its emitted literals carry the
constant-TRUE outgoing boundary literal. -/
theorem c10_witness :
    passSt0.deconf = [] ∧ passSt0.events = [] ∧
    passEvent0 ∈ passStOut.events ∧
    passVisits.get? passEvent0.visit = some (0, 1) ∧
    passProblem.trains.get? 0 = some passTrain0 ∧
    passTrain0.visits.get? 1 = some passVisit1 ∧
    ¬((0, 1).2 + 1 < passTrain0.visits.length) ∧
    (passEvent0.hasNext = false ∧
     passEvent0.t1Out = passEvent0.t1In + passVisit1.travel_time ∧
     (∀ l, passEvent0.lits = some l → l.t1OutLit = BoolL.const true ∧
       l.t1OutLit.neg = BoolL.const false)) :=
  ⟨rfl, rfl, by decide, rfl, rfl, rfl, by decide,
   c10_last_visit_t_out passProblem passVisits passResourceVisits
     passConflicts SatPrecEncoding.Plain [0, 1, 2, 3] passSt0 passStOut
     passEvent0 (0, 1) passTrain0 passVisit1 rfl rfl rfl (by decide) rfl rfl
     rfl (by decide)⟩
